import Mathlib

/-!
# Verification of the `devtools` HTTP client facade and data utilities

A shallow embedding in Lean 4 of the Python code in `devtools/api_utils.py`
and `devtools/data_utils.py`, together with theorems settling the behavioural
claims about it.

Conventions of the embedding:
* Python exceptions are modelled with `Except String`: a raised exception is
  `Except.error msg`, a normal return is `Except.ok v`.
* Python `int` is `Int`, non-negative counts are sometimes specialised to
  `Nat`; Python `float` (only used for backoff delays) is modelled as `ℚ`,
  which is exact for the products `backoff_factor * 2 ** attempt`.
* The network, the clock and the file system are modelled as explicit
  parameters (a transport function per attempt, a list of recorded sleep
  durations, explicit open/write results).
-/

/-! ## HTTP responses and `raise_for_status` -/

/-- An HTTP response as seen by the facade: a status code and the body as the
list of chunks that `iter_content` would yield. -/
structure HttpResponse (α : Type) where
  status : Nat
  chunks : List (List α)
deriving DecidableEq

/-- `requests.Response.raise_for_status`: raises `HTTPError` for client and
server error status codes (`400 ≤ code < 600`), otherwise returns normally. -/
def raise_for_status (r : HttpResponse α) : Except String (HttpResponse α) :=
  if 400 ≤ r.status ∧ r.status < 600 then Except.error "HTTPError" else Except.ok r

/-! ## `request_with_retry` (api_utils.py lines 143-168)

```python
for attempt in range(max_retries + 1):
    try:
        response = self.session.request(method, self._build_url(endpoint),
                                     timeout=self.timeout, **kwargs)
        response.raise_for_status()
        return response
    except requests.exceptions.RequestException as e:
        if attempt == max_retries:
            raise e
        time.sleep(backoff_factor * (2 ** attempt))
return None
```

The transport is abstracted as `net : Int → Except String (HttpResponse α)`,
giving the outcome of `session.request` on each (zero-indexed) attempt; both
the request itself and the `raise_for_status` check sit inside the `try`.
The embedding additionally records how many attempts were issued and which
sleep durations occurred, so that the claims about attempt counts and
backoff delays can be stated. -/

/-- Python `range(n)` for an `int` argument, as a list of `Int`s
(empty when `n ≤ 0`). -/
def pyRange (n : Int) : List Int :=
  (List.range n.toNat).map Int.ofNat

/-- One attempt of the `try` block body: issue the request, then apply the
non-2xx check; any failure of either is a caught `RequestException`. -/
def attemptStep (net : Int → Except String (HttpResponse α)) (i : Int) :
    Except String (HttpResponse α) :=
  (net i).bind raise_for_status

instance [DecidableEq ε] [DecidableEq ρ] : DecidableEq (Except ε ρ) := fun x y =>
  match x, y with
  | Except.ok a, Except.ok b =>
    if h : a = b then isTrue (h ▸ rfl) else isFalse (fun hc => h (Except.ok.inj hc))
  | Except.error a, Except.error b =>
    if h : a = b then isTrue (h ▸ rfl) else isFalse (fun hc => h (Except.error.inj hc))
  | Except.ok _, Except.error _ => isFalse nofun
  | Except.error _, Except.ok _ => isFalse nofun

/-- `true` iff an `Except` value is a raised exception. -/
def exceptIsError : Except ε ρ → Bool
  | Except.error _ => true
  | Except.ok _ => false

/-- Instrumented outcome of `request_with_retry`: the returned value
(`Except.ok none` models the Python `return None` after the loop), the number
of attempts issued, and the recorded sleep durations in order. -/
structure RetryOutcome (α : Type) where
  result : Except String (Option (HttpResponse α))
  attempts : Nat
  sleeps : List ℚ

/-- The retry loop of `request_with_retry`, iterating over the remaining
attempt indices. -/
def retryLoop (net : Int → Except String (HttpResponse α)) (max_retries : Int)
    (backoff_factor : ℚ) : List Int → RetryOutcome α
  | [] => ⟨Except.ok none, 0, []⟩
  | attempt :: rest =>
    match attemptStep net attempt with
    | Except.ok response => ⟨Except.ok (some response), 1, []⟩
    | Except.error e =>
      if attempt = max_retries then ⟨Except.error e, 1, []⟩
      else
        let o := retryLoop net max_retries backoff_factor rest
        ⟨o.result, o.attempts + 1, backoff_factor * (2 : ℚ) ^ attempt :: o.sleeps⟩

/-- `APIUtils.request_with_retry`: run the retry loop over
`range(max_retries + 1)`. -/
def request_with_retry (net : Int → Except String (HttpResponse α))
    (max_retries : Int) (backoff_factor : ℚ) : RetryOutcome α :=
  retryLoop net max_retries backoff_factor (pyRange (max_retries + 1))

/-! ## `set_auth` (api_utils.py lines 49-72) -/

/-- The mutable session state touched by `set_auth`: the `auth` attribute and
the ordered header mapping. -/
structure Session where
  auth : Option (String × String)
  headers : List (String × String)
deriving DecidableEq

/-- Python `d[k] = v` on an ordered dict represented as an association list:
update in place if the key is present, append otherwise. -/
def dictSet (hs : List (String × String)) (k v : String) : List (String × String) :=
  match hs with
  | [] => [(k, v)]
  | (k0, v0) :: rest => if k0 = k then (k, v) :: rest else (k0, v0) :: dictSet rest k v

/-- The keyword arguments `set_auth` reads via `kwargs.get`; `none` models an
absent keyword. -/
structure AuthKwargs where
  username : Option String := none
  password : Option String := none
  token : Option String := none
  api_key : Option String := none
  header_name : Option String := none
deriving DecidableEq

/-- Python truthiness of `kwargs.get(...)`: `None` and the empty string are
falsy, every other string is truthy. -/
def truthy : Option String → Bool
  | none => false
  | some s => s ≠ ""

/-- `APIUtils.set_auth`. -/
def set_auth (s : Session) (auth_type : String) (kw : AuthKwargs) : Session :=
  if auth_type = "basic" then
    if truthy kw.username && truthy kw.password then
      { s with auth := some (kw.username.getD "", kw.password.getD "") }
    else s
  else if auth_type = "bearer" then
    if truthy kw.token then
      { s with headers := dictSet s.headers "Authorization" ("Bearer " ++ kw.token.getD "") }
    else s
  else if auth_type = "api_key" then
    if truthy kw.api_key then
      { s with headers := dictSet s.headers (kw.header_name.getD "X-API-Key") (kw.api_key.getD "") }
    else s
  else s

/-! ## `download_file` (api_utils.py lines 170-192) -/

/-- The body of the download loop: write every non-empty chunk to the file in
order (`for chunk in response.iter_content(...): if chunk: f.write(chunk)`). -/
def streamChunks (chunks : List (List α)) : List α :=
  chunks.foldl (fun acc c => if c.isEmpty then acc else acc ++ c) []

/-- `APIUtils.download_file`. `netResult` is the outcome of
`session.get(url, stream=True, ...)`; `openResult` is the outcome of
`open(file_path, 'wb')` (standing for the file-system failure modes).
The whole body sits in `try: ... except Exception: return False`, so the
result is `Except.ok (flag, written)` where `written` is the file content on
success; the `Except.error` branch of the return type is what a propagated
exception would be. -/
def download_file (netResult : Except String (HttpResponse α))
    (openResult : Except String Unit) : Except String (Bool × List α) :=
  match
    (match netResult with
     | Except.error e => Except.error e
     | Except.ok response =>
       match raise_for_status response with
       | Except.error e => Except.error e
       | Except.ok response =>
         match openResult with
         | Except.error e => Except.error e
         | Except.ok _ => Except.ok (streamChunks response.chunks) :
       Except String (List α)) with
  | Except.ok written => Except.ok (true, written)
  | Except.error _ => Except.ok (false, [])

/-! ## `upload_file` (api_utils.py lines 194-215) -/

/-- Instrumented outcome of `upload_file`: the returned/raised value plus a
count of the file handles opened and closed during the call. -/
structure UploadOutcome (ρ : Type) where
  result : Except String ρ
  openedHandles : Nat
  closedHandles : Nat

/-- `APIUtils.upload_file`. `openResult` is the outcome of
`open(file_path, 'rb')` and `postResult` the outcome of `session.post`; the
`try/finally` closes the handle on both the return path and the raise path. -/
def upload_file (openResult : Except String Unit) (postResult : Except String ρ) :
    UploadOutcome ρ :=
  match openResult with
  | Except.error e => ⟨Except.error e, 0, 0⟩
  | Except.ok _ =>
    match postResult with
    | Except.ok r => ⟨Except.ok r, 1, 1⟩
    | Except.error e => ⟨Except.error e, 1, 1⟩

/-! ## `parse_response` (api_utils.py lines 234-257)

`response.json()` delegates to `json.loads` on the body text. The parser
below models `json.loads` on standard JSON (objects, arrays, strings with
escapes, numbers, booleans, null); the non-standard `NaN`/`Infinity`
extensions and surrogate-pair recombination are not modelled. A failed parse
is the `json.JSONDecodeError` that `parse_response` catches. -/

/-- A decoded JSON value. Integral numbers decode to Python `int`
(`intNum`), numbers written with a fraction or exponent to Python `float`
(`floatNum`, exact as a rational). -/
inductive JsonV where
  | null : JsonV
  | boolean : Bool → JsonV
  | intNum : Int → JsonV
  | floatNum : ℚ → JsonV
  | str : String → JsonV
  | arr : List JsonV → JsonV
  | obj : List (String × JsonV) → JsonV

/-- Python `d[k] = v` on an ordered dict with arbitrary value type: update in
place if the key is present, append otherwise. -/
def pyDictSet [DecidableEq κ] (l : List (κ × β)) (k : κ) (v : β) : List (κ × β) :=
  match l with
  | [] => [(k, v)]
  | (k0, v0) :: rest => if k0 = k then (k, v) :: rest else (k0, v0) :: pyDictSet rest k v

/-- Skip JSON whitespace. -/
def skipWs : List Char → List Char
  | [] => []
  | c :: rest =>
    if c = ' ' ∨ c = '\t' ∨ c = '\n' ∨ c = '\r' then skipWs rest else c :: rest

/-- Value of a hex digit, if any. -/
def hexVal (c : Char) : Option Nat :=
  if '0' ≤ c ∧ c ≤ '9' then some (c.toNat - '0'.toNat)
  else if 'a' ≤ c ∧ c ≤ 'f' then some (c.toNat - 'a'.toNat + 10)
  else if 'A' ≤ c ∧ c ≤ 'F' then some (c.toNat - 'A'.toNat + 10)
  else none

/-- Decode a single-character JSON escape. -/
def escChar (c : Char) : Option Char :=
  if c = '"' then some '"'
  else if c = '\\' then some '\\'
  else if c = '/' then some '/'
  else if c = 'b' then some (Char.ofNat 8)
  else if c = 'f' then some (Char.ofNat 12)
  else if c = 'n' then some '\n'
  else if c = 'r' then some '\r'
  else if c = 't' then some '\t'
  else none

/-- Parse the remainder of a JSON string literal (the opening quote already
consumed), returning the decoded characters and the rest of the input. -/
def parseJStrBody : List Char → Except String (List Char × List Char)
  | [] => Except.error "Unterminated string"
  | c :: rest =>
    if c = '"' then Except.ok ([], rest)
    else if c = '\\' then
      match rest with
      | [] => Except.error "Unterminated string"
      | 'u' :: h1 :: h2 :: h3 :: h4 :: rest2 =>
        match hexVal h1, hexVal h2, hexVal h3, hexVal h4 with
        | some a, some b, some c2, some d =>
          match parseJStrBody rest2 with
          | Except.ok (s, rem) =>
            Except.ok (Char.ofNat (((a * 16 + b) * 16 + c2) * 16 + d) :: s, rem)
          | Except.error e => Except.error e
        | _, _, _, _ => Except.error "Invalid \\uXXXX escape"
      | e :: rest2 =>
        match escChar e with
        | some d =>
          match parseJStrBody rest2 with
          | Except.ok (s, rem) => Except.ok (d :: s, rem)
          | Except.error err => Except.error err
        | none => Except.error "Invalid escape"
    else if c.toNat < 32 then Except.error "Invalid control character"
    else
      match parseJStrBody rest with
      | Except.ok (s, rem) => Except.ok (c :: s, rem)
      | Except.error e => Except.error e

/-- Numeric value of a digit run. -/
def digitsToNat (ds : List Char) : Nat :=
  ds.foldl (fun acc c => acc * 10 + (c.toNat - '0'.toNat)) 0

/-- Parse a JSON number (grammar `-? (0 | [1-9][0-9]*) (. [0-9]+)?
([eE] [+-]? [0-9]+)?`), returning the decoded value and the rest. -/
def parseJNum (s : List Char) : Except String (JsonV × List Char) :=
  let (neg, s1) := match s with
    | '-' :: rest => (true, rest)
    | _ => (false, s)
  match s1 with
  | [] => Except.error "Expecting value"
  | c :: rest =>
    if ¬ c.isDigit then Except.error "Expecting value"
    else
      let (ipart, s2) :=
        if c = '0' then ([c], rest)
        else ((c :: rest).takeWhile Char.isDigit, (c :: rest).dropWhile Char.isDigit)
      let (fpart, s3) := match s2 with
        | '.' :: rest2 =>
          if (rest2.takeWhile Char.isDigit).isEmpty then (none, s2)
          else (some (rest2.takeWhile Char.isDigit), rest2.dropWhile Char.isDigit)
        | _ => (none, s2)
      let (epart, s4) := match s3 with
        | e :: rest3 =>
          if e = 'e' ∨ e = 'E' then
            let (esign, rest4) := match rest3 with
              | '+' :: r => ((1 : Int), r)
              | '-' :: r => ((-1 : Int), r)
              | _ => ((1 : Int), rest3)
            if (rest4.takeWhile Char.isDigit).isEmpty then (none, s3)
            else (some (esign * (digitsToNat (rest4.takeWhile Char.isDigit) : Int)),
                  rest4.dropWhile Char.isDigit)
          else (none, s3)
        | [] => (none, s3)
      let sign : Int := if neg then -1 else 1
      match fpart, epart with
      | none, none => Except.ok (JsonV.intNum (sign * (digitsToNat ipart : Int)), s4)
      | _, _ =>
        let frac : ℚ := match fpart with
          | none => (digitsToNat ipart : ℚ)
          | some fs => (digitsToNat ipart : ℚ) +
              (digitsToNat fs : ℚ) / ((10 : ℚ) ^ fs.length)
        let exp : Int := epart.getD 0
        Except.ok (JsonV.floatNum ((sign : ℚ) * frac * (10 : ℚ) ^ exp), s4)

mutual

/-- Parse one JSON value from the input (leading whitespace allowed). `fuel`
only bounds recursion depth; it is chosen large enough at the top level that
it never runs out on any input. -/
def parseJValue : Nat → List Char → Except String (JsonV × List Char)
  | 0, _ => Except.error "Expecting value"
  | fuel + 1, s =>
    match skipWs s with
    | [] => Except.error "Expecting value"
    | c :: rest =>
      if c = 'n' then
        match rest with
        | 'u' :: 'l' :: 'l' :: rem => Except.ok (JsonV.null, rem)
        | _ => Except.error "Expecting value"
      else if c = 't' then
        match rest with
        | 'r' :: 'u' :: 'e' :: rem => Except.ok (JsonV.boolean true, rem)
        | _ => Except.error "Expecting value"
      else if c = 'f' then
        match rest with
        | 'a' :: 'l' :: 's' :: 'e' :: rem => Except.ok (JsonV.boolean false, rem)
        | _ => Except.error "Expecting value"
      else if c = '"' then
        match parseJStrBody rest with
        | Except.ok (cs, rem) => Except.ok (JsonV.str (String.mk cs), rem)
        | Except.error e => Except.error e
      else if c = '[' then
        match skipWs rest with
        | ']' :: rem => Except.ok (JsonV.arr [], rem)
        | s2 =>
          match parseJArrItems fuel s2 with
          | Except.ok (vs, rem) => Except.ok (JsonV.arr vs, rem)
          | Except.error e => Except.error e
      else if c = '\x7b' then
        match skipWs rest with
        | '\x7d' :: rem => Except.ok (JsonV.obj [], rem)
        | s2 =>
          match parseJObjItems fuel s2 with
          | Except.ok (kvs, rem) => Except.ok (JsonV.obj kvs, rem)
          | Except.error e => Except.error e
      else parseJNum (c :: rest)

/-- Parse the comma-separated items of a non-empty JSON array, up to and
including the closing bracket. -/
def parseJArrItems : Nat → List Char → Except String (List JsonV × List Char)
  | 0, _ => Except.error "Expecting value"
  | fuel + 1, s =>
    match parseJValue fuel s with
    | Except.error e => Except.error e
    | Except.ok (v, rem) =>
      match skipWs rem with
      | ',' :: rem2 =>
        match parseJArrItems fuel rem2 with
        | Except.ok (vs, rem3) => Except.ok (v :: vs, rem3)
        | Except.error e => Except.error e
      | ']' :: rem2 => Except.ok ([v], rem2)
      | _ => Except.error "Expecting comma"

/-- Parse the comma-separated members of a non-empty JSON object, up to and
including the closing brace; duplicate keys keep the last value, as in
Python. -/
def parseJObjItems : Nat → List Char → Except String (List (String × JsonV) × List Char)
  | 0, _ => Except.error "Expecting value"
  | fuel + 1, s =>
    match skipWs s with
    | '"' :: rest =>
      match parseJStrBody rest with
      | Except.error e => Except.error e
      | Except.ok (kcs, rem) =>
        match skipWs rem with
        | ':' :: rem2 =>
          match parseJValue fuel rem2 with
          | Except.error e => Except.error e
          | Except.ok (v, rem3) =>
            match skipWs rem3 with
            | ',' :: rem4 =>
              match parseJObjItems fuel rem4 with
              | Except.ok (kvs, rem5) =>
                Except.ok (pyDictSet kvs (String.mk kcs) v, rem5)
              | Except.error e => Except.error e
            | '\x7d' :: rem4 => Except.ok ([(String.mk kcs, v)], rem4)
            | _ => Except.error "Expecting comma"
        | _ => Except.error "Expecting colon"
    | _ => Except.error "Expecting property name"

end

/-- `json.loads`: parse one JSON document, requiring only whitespace after
it. -/
def jsonLoads (s : String) : Except String JsonV :=
  match parseJValue (2 * s.length + 2) s.toList with
  | Except.error e => Except.error e
  | Except.ok (v, rem) =>
    match skipWs rem with
    | [] => Except.ok v
    | _ => Except.error "Extra data"

/-- The response data `parse_response` reads: the decoded text body and the
raw bytes (`response.text` and `response.content`). -/
structure PResponse where
  text : String
  content : List Nat

/-- The `Union[Dict[str, Any], str, bytes]` return type of `parse_response`. -/
inductive ParsedBody where
  | jsonVal : JsonV → ParsedBody
  | textVal : String → ParsedBody
  | bytesVal : List Nat → ParsedBody

/-- `APIUtils.parse_response`. The only exception source in the Python body
is `response.json()` (a `json.JSONDecodeError`), which the `except` catches
and converts into the fallback mapping, so the `Except.error` branch of the
return type is what a propagated exception would be. -/
def parse_response (r : PResponse) (expected_format : String) :
    Except String ParsedBody :=
  if expected_format = "json" then
    match jsonLoads r.text with
    | Except.ok v => Except.ok (ParsedBody.jsonVal v)
    | Except.error _ =>
      Except.ok (ParsedBody.jsonVal (JsonV.obj
        [("error", JsonV.str "Invalid JSON response"),
         ("content", JsonV.str r.text)]))
  else if expected_format = "text" then Except.ok (ParsedBody.textVal r.text)
  else if expected_format = "bytes" then Except.ok (ParsedBody.bytesVal r.content)
  else Except.ok (ParsedBody.textVal r.text)

/-! ## `flatten_dict` / `unflatten_dict` (data_utils.py lines 15-60)

A Python value that may appear inside a nested dict is either a dict or a
non-dict leaf. Python dicts are ordered; they are modelled as association
lists with the `pyDictSet` insert-or-update semantics. -/

/-- A nested Python value: a leaf (any non-dict value) or a dict. -/
inductive PyObj (α : Type) where
  | leaf : α → PyObj α
  | dict : List (String × PyObj α) → PyObj α

/-- `dict(items)`: build a dict from a list of pairs; a duplicated key keeps
its first position and the last value. -/
def pyDict [DecidableEq κ] (l : List (κ × β)) : List (κ × β) :=
  l.foldl (fun acc kv => pyDictSet acc kv.1 kv.2) []

/-- Python `d.get(k)` / `k in d` on the association-list dict model. -/
def pyDictGet [DecidableEq κ] (l : List (κ × β)) (k : κ) : Option β :=
  match l with
  | [] => none
  | (k0, v) :: rest => if k0 = k then some v else pyDictGet rest k

mutual

/-- `DataUtils.flatten_dict._flatten`: a leaf contributes `{parent_key: obj}`;
a dict contributes `dict(items)` of the flattened children, where a child's
key is `parent_key + sep + k` when `parent_key` is truthy and `k` alone
otherwise. -/
def flattenAux (sep parent_key : String) : PyObj α → List (String × α)
  | PyObj.leaf a => [(parent_key, a)]
  | PyObj.dict l => pyDict (flattenList sep parent_key l)

/-- The `items.extend(...)` loop over the entries of one dict. -/
def flattenList (sep parent_key : String) : List (String × PyObj α) → List (String × α)
  | [] => []
  | (k, v) :: rest =>
    flattenAux sep (if parent_key = "" then k else parent_key ++ sep ++ k) v ++
      flattenList sep parent_key rest

end

/-- `DataUtils.flatten_dict`. -/
def flatten_dict (nested_dict : List (String × PyObj α)) (separator : String) :
    List (String × α) :=
  flattenAux separator "" (PyObj.dict nested_dict)

/-- Does `s` start with `sep`? -/
def startsWithSeq : List Char → List Char → Bool
  | [], _ => true
  | _ :: _, [] => false
  | p :: ps, c :: cs => p = c && startsWithSeq ps cs

/-- Python `s.split(sep)` for a non-empty separator `sep`, on character
lists: split at each leftmost occurrence of `sep`. -/
def splitSeq (sep : List Char) (s : List Char) : List (List Char) :=
  if h : sep ≠ [] ∧ startsWithSeq sep s = true then
    [] :: splitSeq sep (s.drop sep.length)
  else
    match s with
    | [] => [[]]
    | c :: rest =>
      match splitSeq sep rest with
      | [] => [[c]]
      | hd :: t => (c :: hd) :: t
termination_by s.length
decreasing_by
  · have h1 : 1 ≤ sep.length := by
      cases hsep : sep with
      | nil => exact absurd hsep h.1
      | cons a b => simp
    have hlen : ∀ (t u : List Char), startsWithSeq t u = true → t.length ≤ u.length := by
      intro t
      induction t with
      | nil =>
        intro u _
        simp
      | cons p ps ih =>
        intro u hu
        cases u with
        | nil => simp [startsWithSeq] at hu
        | cons c cs =>
          simp only [startsWithSeq, Bool.and_eq_true] at hu
          simpa using ih cs hu.2
    have h2 : sep.length ≤ s.length := hlen sep s h.2
    simp only [List.length_drop]
    omega
  · simp only [List.length_cons]
    omega

/-- Python `s.split(sep)` on strings. -/
def pySplit (s sep : String) : List String :=
  (splitSeq sep.toList s.toList).map (fun cs => String.mk cs)

/-- Does `s` contain `sep` as a contiguous substring? -/
def containsSeq (sep : List Char) : List Char → Bool
  | [] => startsWithSeq sep []
  | c :: rest => startsWithSeq sep (c :: rest) || containsSeq sep rest

/-- One `insertPath` walk of `unflatten_dict`'s inner loop: descend along the
intermediate keys `ks` (creating empty dicts for missing keys), then assign
the leaf at `klast`. Descending into an existing non-dict value models the
`TypeError` Python raises there. -/
def insertPath (d : List (String × PyObj α)) (ks : List String) (klast : String)
    (a : α) : Except String (List (String × PyObj α)) :=
  match ks with
  | [] => Except.ok (pyDictSet d klast (PyObj.leaf a))
  | k :: rest =>
    match pyDictGet d k with
    | none =>
      match insertPath [] rest klast a with
      | Except.ok sub => Except.ok (pyDictSet d k (PyObj.dict sub))
      | Except.error e => Except.error e
    | some (PyObj.dict m) =>
      match insertPath m rest klast a with
      | Except.ok sub => Except.ok (pyDictSet d k (PyObj.dict sub))
      | Except.error e => Except.error e
    | some (PyObj.leaf _) => Except.error "TypeError"

/-- The `for key, value in flat_dict.items()` loop of `unflatten_dict`
(`keys = key.split(separator)`; `split` never returns an empty list, so
`keys[-1]` is its last element). -/
def insertEntries (separator : String) (d : List (String × PyObj α)) :
    List (String × α) → Except String (List (String × PyObj α))
  | [] => Except.ok d
  | (key, a) :: rest =>
    let keys := pySplit key separator
    match insertPath d keys.dropLast (keys.getLastD "") a with
    | Except.ok d2 => insertEntries separator d2 rest
    | Except.error e => Except.error e

/-- `DataUtils.unflatten_dict`. `str.split` raises `ValueError` on an empty
separator. -/
def unflatten_dict (flat_dict : List (String × α)) (separator : String) :
    Except String (List (String × PyObj α)) :=
  if separator = "" then Except.error "ValueError"
  else insertEntries separator [] flat_dict

mutual

/-- Well-formedness of a dict value in the sense of claim C10: a leaf, or
a non-empty dict whose entries are well-formed. -/
def wfVal (sep : String) : PyObj α → Bool
  | PyObj.leaf _ => true
  | PyObj.dict l => (match l with | [] => false | _ :: _ => true) && wfEntries sep l

/-- Well-formedness of a dict's entry list: keys are non-empty, do not
contain the separator, are distinct (inherent to a Python dict), and values
are well-formed. -/
def wfEntries (sep : String) : List (String × PyObj α) → Bool
  | [] => true
  | (k, v) :: rest =>
    (k ≠ "" : Bool) && (containsSeq sep.toList k.toList = false) &&
      rest.all (fun kv => kv.1 ≠ k) && wfVal sep v && wfEntries sep rest

end

/-! ## Key joining and splitting -/

/-- A key is good for separator character `c` when it is non-empty and does
not contain `c`. -/
def GoodSeg (c : Char) (k : String) : Prop := k ≠ "" ∧ c ∉ k.data

/-- The key-building step of `_flatten`:
`f"{parent_key}{sep}{k}" if parent_key else k`. -/
def joinKeyStep (sep acc k : String) : String :=
  if acc = "" then k else acc ++ sep ++ k

/-- Fold the key-building step over a path of keys. -/
def joinPath (sep pk : String) (p : List String) : String :=
  p.foldl (joinKeyStep sep) pk

/-! ## Flattened entries as key paths -/

mutual

/-- The flattened entries of a value, with keys as paths (lists of dict keys
from this value down to each leaf) instead of joined strings. -/
def pathsObj : PyObj α → List (List String × α)
  | PyObj.leaf a => [([], a)]
  | PyObj.dict l => pathsList l

/-- Path-level flattened entries of a dict's entry list. -/
def pathsList : List (String × PyObj α) → List (List String × α)
  | [] => []
  | (k, v) :: rest =>
    (pathsObj v).map (fun pa => (k :: pa.1, pa.2)) ++ pathsList rest

end

/-! ## Unflattening path-keyed entries -/

/-- The `unflatten_dict` loop with keys already split into paths. -/
def insertPathEntries (d : List (String × PyObj α)) :
    List (List String × α) → Except String (List (String × PyObj α))
  | [] => Except.ok d
  | (ks, a) :: rest =>
    match insertPath d ks.dropLast (ks.getLastD "") a with
    | Except.ok d2 => insertPathEntries d2 rest
    | Except.error e => Except.error e

/-! ## `_build_url` (api_utils.py lines 74-78) and `urllib.parse`

`_build_url` delegates to `urllib.parse.urljoin`. The functions below embed
CPython 3.11's `urlsplit`, `urlparse`, `urlunsplit`, `urlunparse` and
`urljoin` for `str` arguments, with two conservative deviations, both
modelled as errors and both outside every claim considered here: a netloc
containing brackets (IPv6 hosts, validated via `ipaddress` in CPython) and a
non-ASCII netloc (validated via NFKC normalization in CPython) are rejected
instead of being validated. -/

/-- `url.lstrip(_WHATWG_C0_CONTROL_OR_SPACE)`: strip leading characters with
code point ≤ 32. -/
def lstripC0 : List Char → List Char
  | [] => []
  | ch :: rest => if ch.toNat ≤ 32 then lstripC0 rest else ch :: rest

/-- `s.strip(_WHATWG_C0_CONTROL_OR_SPACE)` (used on the default-scheme
argument): strip on both ends. -/
def stripC0 (l : List Char) : List Char :=
  (lstripC0 (lstripC0 l.reverse).reverse)

/-- Removal of `_UNSAFE_URL_BYTES_TO_REMOVE` (tab, CR, LF) anywhere in the
url or scheme. -/
def removeUnsafe (l : List Char) : List Char :=
  l.filter (fun ch => ¬(ch = '\t' ∨ ch = '\r' ∨ ch = '\n'))

/-- `s.find(ch)`: index of the first occurrence, if any. -/
def findChar (ch : Char) : List Char → Option Nat
  | [] => none
  | c :: rest =>
    if c = ch then some 0
    else
      match findChar ch rest with
      | some i => some (i + 1)
      | none => none

/-- `s.split(ch)` for a single-character separator. -/
def splitChar (ch : Char) : List Char → List (List Char)
  | [] => [[]]
  | c :: rest =>
    if c = ch then [] :: splitChar ch rest
    else
      match splitChar ch rest with
      | [] => [[c]]
      | hd :: t => (c :: hd) :: t

/-- `s.split(ch, 1)`: split at the first occurrence only. -/
def splitOnce (ch : Char) (l : List Char) : List Char × List Char :=
  (l.takeWhile (fun c => c ≠ ch), (l.dropWhile (fun c => c ≠ ch)).drop 1)

/-- A character of `scheme_chars`
(ASCII letters, digits, `+`, `-`, `.`). -/
def isSchemeChar (ch : Char) : Bool :=
  (('a' ≤ ch ∧ ch ≤ 'z') ∨ ('A' ≤ ch ∧ ch ≤ 'Z') ∨ ('0' ≤ ch ∧ ch ≤ '9') ∨
    ch = '+' ∨ ch = '-' ∨ ch = '.')

/-- `url[0].isascii() and url[0].isalpha()`. -/
def isAsciiAlpha (ch : Char) : Bool :=
  (('a' ≤ ch ∧ ch ≤ 'z') ∨ ('A' ≤ ch ∧ ch ≤ 'Z'))

/-- The `url[0]` test guarding scheme detection, on a possibly empty url. -/
def headAsciiAlpha : List Char → Bool
  | [] => false
  | c :: _ => isAsciiAlpha c

/-- `uses_relative` (schemes allowing relative resolution). -/
def usesRelative : List String :=
  ["", "ftp", "http", "gopher", "nntp", "imap", "wais", "file", "https",
   "shttp", "mms", "prospero", "rtsp", "rtsps", "rtspu", "sftp", "svn",
   "svn+ssh", "ws", "wss"]

/-- `uses_netloc`. -/
def usesNetloc : List String :=
  ["", "ftp", "http", "gopher", "nntp", "telnet", "imap", "wais", "file",
   "mms", "https", "shttp", "snews", "prospero", "rtsp", "rtsps", "rtspu",
   "rsync", "svn", "svn+ssh", "sftp", "nfs", "git", "git+ssh", "ws", "wss"]

/-- `uses_params`. -/
def usesParams : List String :=
  ["", "ftp", "hdl", "prospero", "http", "imap", "https", "shttp", "rtsp",
   "rtsps", "rtspu", "sip", "sips", "mms", "sftp", "tel"]

/-- `_splitnetloc(url, 2)`: the netloc runs to the first of `/`, `?`, `#`
after the `//`. -/
def splitnetloc (l : List Char) : List Char × List Char :=
  (l.takeWhile (fun c => ¬(c = '/' ∨ c = '?' ∨ c = '#')),
   l.dropWhile (fun c => ¬(c = '/' ∨ c = '?' ∨ c = '#')))

/-- The result of `urlsplit`. -/
structure SplitResult where
  scheme : List Char
  netloc : List Char
  path : List Char
  query : List Char
  fragment : List Char
deriving DecidableEq

/-- `urllib.parse.urlsplit` for `str` arguments (`allow_fragments=True`).
Bracketed and non-ASCII netlocs are conservatively rejected (see section
comment). -/
def urlsplit (url0 scheme0 : List Char) : Except String SplitResult :=
  let url1 := removeUnsafe (lstripC0 url0)
  let scheme1 := removeUnsafe (stripC0 scheme0)
  let (scheme2, url2) :=
    match findChar ':' url1 with
    | some i =>
      if 0 < i ∧ headAsciiAlpha url1 = true ∧ (url1.take i).all isSchemeChar = true then
        ((url1.take i).map Char.toLower, url1.drop (i + 1))
      else (scheme1, url1)
    | none => (scheme1, url1)
  if url2.take 2 = ['/', '/'] then
    let (netloc, url3) := splitnetloc (url2.drop 2)
    if ('[' ∈ netloc ∧ ']' ∉ netloc) ∨ (']' ∈ netloc ∧ '[' ∉ netloc) then
      Except.error "ValueError: Invalid IPv6 URL"
    else if '[' ∈ netloc ∧ ']' ∈ netloc then
      Except.error "bracketed host not modelled"
    else if netloc ≠ [] ∧ ¬ netloc.all (fun ch => ch.toNat < 128) then
      Except.error "non-ASCII netloc not modelled"
    else
      let (url4, fragment) :=
        if '#' ∈ url3 then splitOnce '#' url3 else (url3, [])
      let (url5, query) :=
        if '?' ∈ url4 then splitOnce '?' url4 else (url4, [])
      Except.ok ⟨scheme2, netloc, url5, query, fragment⟩
  else
    let (url4, fragment) :=
      if '#' ∈ url2 then splitOnce '#' url2 else (url2, [])
    let (url5, query) :=
      if '?' ∈ url4 then splitOnce '?' url4 else (url4, [])
    Except.ok ⟨scheme2, [], url5, query, fragment⟩

/-- `s.rfind(ch)`: index of the last occurrence, if any. -/
def rfindChar (ch : Char) (l : List Char) : Option Nat :=
  (findChar ch l.reverse).map (fun i => l.length - 1 - i)

/-- `s.find(ch, start)`. -/
def findCharFrom (ch : Char) (l : List Char) (start : Nat) : Option Nat :=
  (findChar ch (l.drop start)).map (fun i => start + i)

/-- `_splitparams(url)`: split `;params` off the last path segment. -/
def splitparams (url : List Char) : List Char × List Char :=
  match
    (if '/' ∈ url then
      match rfindChar '/' url with
      | some j => findCharFrom ';' url j
      | none => findChar ';' url
     else findChar ';' url) with
  | some i => (url.take i, url.drop (i + 1))
  | none => (url, [])

/-- The result of `urlparse`. -/
structure ParseResult where
  scheme : List Char
  netloc : List Char
  path : List Char
  params : List Char
  query : List Char
  fragment : List Char
deriving DecidableEq

/-- `urllib.parse.urlparse` for `str` arguments. -/
def urlparse (url0 scheme0 : List Char) : Except String ParseResult :=
  match urlsplit url0 scheme0 with
  | Except.error e => Except.error e
  | Except.ok r =>
    if String.mk r.scheme ∈ usesParams ∧ ';' ∈ r.path then
      let (p, params) := splitparams r.path
      Except.ok ⟨r.scheme, r.netloc, p, params, r.query, r.fragment⟩
    else
      Except.ok ⟨r.scheme, r.netloc, r.path, [], r.query, r.fragment⟩

/-- `urllib.parse.urlunsplit`. -/
def urlunsplit (scheme netloc url query fragment : List Char) : List Char :=
  let url1 :=
    if netloc ≠ [] ∨ (scheme ≠ [] ∧ String.mk scheme ∈ usesNetloc ∧ url.take 2 ≠ ['/', '/']) then
      let url0 := if url ≠ [] ∧ url.take 1 ≠ ['/'] then '/' :: url else url
      '/' :: '/' :: (netloc ++ url0)
    else url
  let url2 := if scheme ≠ [] then scheme ++ ':' :: url1 else url1
  let url3 := if query ≠ [] then url2 ++ '?' :: query else url2
  if fragment ≠ [] then url3 ++ '#' :: fragment else url3

/-- `urllib.parse.urlunparse`. -/
def urlunparse (scheme netloc url params query fragment : List Char) : List Char :=
  let url1 := if params ≠ [] then url ++ ';' :: params else url
  urlunsplit scheme netloc url1 query fragment

/-- The Python slice assignment `segments[1:-1] = filter(None, segments[1:-1])`:
drop empty items strictly between the first and the last. -/
def keepLastFilter : List (List Char) → List (List Char)
  | [] => []
  | [y] => [y]
  | z :: zs => if z.isEmpty then keepLastFilter zs else z :: keepLastFilter zs

/-- Apply `keepLastFilter` after the first element. -/
def filterInner : List (List Char) → List (List Char)
  | [] => []
  | [x] => [x]
  | x :: rest => x :: keepLastFilter rest

/-- The `for seg in segments` resolution loop of `urljoin`: `..` pops the
last resolved segment (ignored on an empty stack), `.` is dropped, anything
else is appended. -/
def resolveSegs (acc : List (List Char)) : List (List Char) → List (List Char)
  | [] => acc
  | seg :: rest =>
    if seg = ['.', '.'] then resolveSegs acc.dropLast rest
    else if seg = ['.'] then resolveSegs acc rest
    else resolveSegs (acc ++ [seg]) rest

/-- `'/'.join(l)`. -/
def joinSlash (l : List (List Char)) : List Char :=
  match l with
  | [] => []
  | [x] => x
  | x :: rest => x ++ '/' :: joinSlash rest

/-- `urllib.parse.urljoin` for `str` arguments. -/
def urljoin (base url : String) : Except String String :=
  if base = "" then Except.ok url
  else if url = "" then Except.ok base
  else
    match urlparse base.data [] with
    | Except.error e => Except.error e
    | Except.ok b =>
      match urlparse url.data b.scheme with
      | Except.error e => Except.error e
      | Except.ok u =>
        if u.scheme ≠ b.scheme ∨ String.mk u.scheme ∉ usesRelative then
          Except.ok url
        else
          if String.mk u.scheme ∈ usesNetloc ∧ u.netloc ≠ [] then
            Except.ok (String.mk
              (urlunparse u.scheme u.netloc u.path u.params u.query u.fragment))
          else
            let netloc := if String.mk u.scheme ∈ usesNetloc then b.netloc else u.netloc
            if u.path = [] ∧ u.params = [] then
              let query := if u.query = [] then b.query else u.query
              Except.ok (String.mk
                (urlunparse u.scheme netloc b.path b.params query u.fragment))
            else
              let base_parts0 := splitChar '/' b.path
              let base_parts :=
                if base_parts0.getLastD [] ≠ [] then base_parts0.dropLast else base_parts0
              let segments :=
                if u.path.take 1 = ['/'] then splitChar '/' u.path
                else filterInner (base_parts ++ splitChar '/' u.path)
              let resolved0 := resolveSegs [] segments
              let resolved :=
                if segments.getLastD [] = ['.'] ∨ segments.getLastD [] = ['.', '.'] then
                  resolved0 ++ [[]]
                else resolved0
              let path2 :=
                if joinSlash resolved = [] then ['/'] else joinSlash resolved
              Except.ok (String.mk
                (urlunparse u.scheme netloc path2 u.params u.query u.fragment))

/-- `s.lstrip('/')`. -/
def lstripSlash (s : String) : String :=
  String.mk (s.data.dropWhile (fun c => c = '/'))

/-- `s.rstrip('/')`. -/
def rstripSlash (s : String) : String :=
  String.mk ((s.data.reverse.dropWhile (fun c => c = '/')).reverse)

/-- `APIUtils._build_url`. -/
def build_url (base_url : Option String) (endpoint : String) : Except String String :=
  match base_url with
  | none => Except.ok endpoint
  | some b =>
    if b ≠ "" ∧ ¬(startsWithSeq "http://".data endpoint.data = true ∨
        startsWithSeq "https://".data endpoint.data = true) then
      urljoin (rstripSlash b ++ "/") (lstripSlash endpoint)
    else Except.ok endpoint

/-! ## Lemmas for the plain-path join theorem -/

/-- Netloc characters allowed by the plain-join theorem: printable ASCII
other than the netloc delimiters and brackets. -/
def netlocCharOk (ch : Char) : Bool :=
  (32 < ch.toNat ∧ ch.toNat < 128 ∧
    ¬(ch = '/' ∨ ch = '?' ∨ ch = '#' ∨ ch = '[' ∨ ch = ']'))

/-- Path-segment characters allowed by the plain-join theorem: above the
control/space range and none of the delimiters `urlsplit`/`urlparse`/scheme
detection react to. -/
def pathCharOk (ch : Char) : Bool :=
  (32 < ch.toNat ∧ ¬(ch = '/' ∨ ch = '?' ∨ ch = '#' ∨ ch = ';' ∨ ch = ':'))

/-- A plain path segment: non-empty, not a dot segment, plain characters. -/
def segOk (sg : String) : Bool :=
  sg.data ≠ [] && sg ≠ "." && sg ≠ ".." && sg.data.all pathCharOk

/-- `"".join("/" + sg for sg in segs)`: the base path built from segments
(empty for no segments, otherwise `/a/b/...`). -/
def slashPath (segs : List String) : String :=
  segs.foldl (fun acc sg => acc ++ "/" ++ sg) ""

/-- A relative path `a/b/...` from non-empty segments. -/
def relPath : List String → String
  | [] => ""
  | sg :: rest => sg ++ slashPath rest

/-- Character-list versions used in proofs. -/
def slashPathD (segs : List (List Char)) : List Char :=
  segs.foldl (fun acc sg => acc ++ '/' :: sg) []

def relPathD : List (List Char) → List Char
  | [] => []
  | sg :: rest => sg ++ slashPathD rest

/-! ## Helper lemmas for the retry loop -/

theorem pyRange_toNat (n : Nat) : pyRange (Int.ofNat n) = (List.range n).map Int.ofNat := by
  simp [pyRange]

theorem pyRange_succ_getLast (n : Nat) :
    (pyRange ((n : Int) + 1)).getLast? = some (n : Int) := by
  have h : ((n : Int) + 1) = Int.ofNat (n + 1) := by simp
  rw [h, pyRange_toNat, List.range_succ]
  simp

theorem retryLoop_result_ne_none (net : Int → Except String (HttpResponse α))
    (mr : Int) (b : ℚ) (l : List Int) (hne : l ≠ [])
    (hlast : l.getLast? = some mr) :
    (retryLoop net mr b l).result ≠ Except.ok none := by
  induction l with
  | nil => exact absurd rfl hne
  | cons a rest ih =>
    rw [retryLoop]
    cases hstep : attemptStep net a with
    | ok r => simp
    | error e =>
      simp only
      by_cases ha : a = mr
      · simp [ha]
      · simp only [if_neg ha]
        rcases rest with _ | ⟨a2, rest2⟩
        · simp at hlast
          exact absurd hlast ha
        · have hlast2 : (a2 :: rest2).getLast? = some mr := by
            rwa [List.getLast?_cons_cons] at hlast
          exact ih (by simp) hlast2

/-- Failure case of the retry loop: if the attempt at every index in the list
fails, no index before the last equals `max_retries`, and the last index is
`max_retries` where the failure is `e`, then the loop issues `l.length`
attempts, sleeps after every attempt except the last, and propagates `e`. -/
theorem retryLoop_all_fail (net : Int → Except String (HttpResponse α))
    (mr : Int) (b : ℚ) (e : String) (l : List Int) (hne : l ≠ [])
    (hlast : l.getLast? = some mr)
    (hnotmr : ∀ a ∈ l.dropLast, a ≠ mr)
    (hfail : ∀ a ∈ l, exceptIsError (attemptStep net a) = true)
    (hlasterr : attemptStep net mr = Except.error e) :
    retryLoop net mr b l =
      ⟨Except.error e, l.length, l.dropLast.map (fun a => b * (2 : ℚ) ^ a)⟩ := by
  induction l with
  | nil => exact absurd rfl hne
  | cons a rest ih =>
    rcases rest with _ | ⟨a2, rest2⟩
    · have ha : a = mr := by simpa using hlast
      subst ha
      rw [retryLoop, hlasterr]
      simp
    · have ha : a ≠ mr := hnotmr a (by simp)
      have hstep := hfail a (by simp)
      cases hstep' : attemptStep net a with
      | ok r => rw [hstep'] at hstep; simp [exceptIsError] at hstep
      | error e2 =>
        rw [retryLoop, hstep']
        simp only [if_neg ha]
        have hrec := ih (by simp)
          (by rwa [List.getLast?_cons_cons] at hlast)
          (fun x hx => hnotmr x (by rw [List.dropLast_cons₂]; exact List.mem_cons_of_mem a hx))
          (fun x hx => hfail x (List.mem_cons_of_mem a hx))
        rw [hrec]
        simp [List.dropLast_cons₂]

/-- Success case of the retry loop: if the attempts at the indices in `pre`
all fail, none of them is `max_retries`, and the attempt at `j` succeeds with
`r`, then the loop over `pre ++ j :: suf` issues `pre.length + 1` attempts,
sleeps after each failed attempt, and returns `r`. -/
theorem retryLoop_succeeds (net : Int → Except String (HttpResponse α))
    (mr : Int) (b : ℚ) (r : HttpResponse α) (pre suf : List Int) (j : Int)
    (hnotmr : ∀ a ∈ pre, a ≠ mr)
    (hfail : ∀ a ∈ pre, exceptIsError (attemptStep net a) = true)
    (hok : attemptStep net j = Except.ok r) :
    retryLoop net mr b (pre ++ j :: suf) =
      ⟨Except.ok (some r), pre.length + 1, pre.map (fun a => b * (2 : ℚ) ^ a)⟩ := by
  induction pre with
  | nil => rw [List.nil_append, retryLoop, hok]; simp
  | cons a rest ih =>
    have ha : a ≠ mr := hnotmr a (by simp)
    have hstep := hfail a (by simp)
    cases hstep' : attemptStep net a with
    | ok r2 => rw [hstep'] at hstep; simp [exceptIsError] at hstep
    | error e2 =>
      rw [List.cons_append, retryLoop, hstep']
      simp only [if_neg ha]
      rw [ih (fun x hx => hnotmr x (List.mem_cons_of_mem a hx))
        (fun x hx => hfail x (List.mem_cons_of_mem a hx))]
      simp

/-! ## Claim theorems: retry behaviour -/

/-- Full description of `request_with_retry` when every attempt fails: the
outcome is the final attempt's exception, `N + 1` attempts, and a backoff
sleep after each attempt except the last. -/
theorem request_with_retry_fail_eq
    (net : Int → Except String (HttpResponse α)) (N : Nat) (b : ℚ) (e : String)
    (hfail : ∀ i : Nat, i ≤ N → exceptIsError (attemptStep net i) = true)
    (hlast : attemptStep net N = Except.error e) :
    request_with_retry net N b =
      ⟨Except.error e, N + 1, (List.range N).map (fun i : Nat => b * (2 : ℚ) ^ (i : ℤ))⟩ := by
  have hrange : pyRange ((N : Int) + 1) = (List.range (N + 1)).map Int.ofNat := by
    have : ((N : Int) + 1) = Int.ofNat (N + 1) := by simp
    rw [this, pyRange_toNat]
  have h := retryLoop_all_fail net (N : Int) b e (pyRange ((N : Int) + 1))
    (by rw [hrange]; simp)
    (pyRange_succ_getLast N)
    (by
      intro a ha
      rw [hrange, List.range_succ] at ha
      simp only [List.map_append, List.map_cons, List.map_nil, List.dropLast_concat] at ha
      simp only [List.mem_map, List.mem_range] at ha
      obtain ⟨i, hi, rfl⟩ := ha
      simp only [ne_eq, Int.ofNat_eq_coe]
      exact_mod_cast Nat.ne_of_lt hi)
    (by
      intro a ha
      rw [hrange] at ha
      simp only [List.mem_map, List.mem_range] at ha
      obtain ⟨i, hi, rfl⟩ := ha
      exact hfail i (Nat.lt_succ_iff.mp hi))
    hlast
  rw [request_with_retry, h]
  congr 1
  · simp [hrange]
  · rw [hrange, List.range_succ]
    simp only [List.map_append, List.map_cons, List.map_nil, List.dropLast_concat,
      List.map_map]
    rfl

/-- Full description of `request_with_retry` when the first success is at
zero-indexed attempt `j ≤ N`: the outcome is that response, `j + 1` attempts,
and a backoff sleep after each of the `j` failed attempts. -/
theorem request_with_retry_success_eq
    (net : Int → Except String (HttpResponse α)) (N j : Nat) (b : ℚ)
    (r : HttpResponse α) (hjN : j ≤ N)
    (hfail : ∀ i : Nat, i < j → exceptIsError (attemptStep net i) = true)
    (hok : attemptStep net j = Except.ok r) :
    request_with_retry net N b =
      ⟨Except.ok (some r), j + 1, (List.range j).map (fun i : Nat => b * (2 : ℚ) ^ (i : ℤ))⟩ := by
  have hsplit : pyRange ((N : Int) + 1) =
      (List.range j).map Int.ofNat ++ (j : Int) ::
        ((List.range (N - j)).map (fun i => ((j + 1 + i : Nat) : Int))) := by
    have h1 : ((N : Int) + 1) = Int.ofNat (N + 1) := by simp
    rw [h1, pyRange_toNat]
    have h2 : N + 1 = j + (N - j + 1) := by omega
    rw [h2, List.range_add, List.map_append, List.range_succ_eq_map]
    congr 1
    simp only [List.map_cons, List.map_map, Nat.add_zero]
    congr 1
    apply List.map_congr_left
    intro i hi
    simp only [Function.comp_apply, Nat.succ_eq_add_one, Int.ofNat_eq_coe]
    push_cast
    ring
  have h := retryLoop_succeeds net (N : Int) b r
    ((List.range j).map Int.ofNat)
    ((List.range (N - j)).map (fun i => ((j + 1 + i : Nat) : Int)))
    (j : Int)
    (by
      intro a ha
      simp only [List.mem_map, List.mem_range] at ha
      obtain ⟨i, hi, rfl⟩ := ha
      have : i < N := lt_of_lt_of_le hi hjN
      simp only [ne_eq, Int.ofNat_eq_coe]
      exact_mod_cast Nat.ne_of_lt this)
    (by
      intro a ha
      simp only [List.mem_map, List.mem_range] at ha
      obtain ⟨i, hi, rfl⟩ := ha
      exact hfail i hi)
    hok
  rw [request_with_retry, hsplit, h]
  congr 1
  · simp
  · rw [List.map_map]
    rfl

/-- **C1.** For `request_with_retry` with `max_retries = N` (a retry count):
if the attempt step (request plus non-2xx check) fails on every attempt, then
exactly `N + 1` attempts are issued and the exception of the final attempt is
propagated; if it first succeeds at zero-indexed attempt `j ≤ N` (i.e. on the
`(j+1)`-st of at most `N+1` attempts), exactly `j + 1` attempts are issued and
that response is returned. -/
theorem request_with_retry_attempt_counts
    (net : Int → Except String (HttpResponse α)) (N : Nat) (b : ℚ) :
    (∀ e : String,
      (∀ i : Nat, i ≤ N → exceptIsError (attemptStep net i) = true) →
      attemptStep net N = Except.error e →
      (request_with_retry net N b).attempts = N + 1 ∧
      (request_with_retry net N b).result = Except.error e) ∧
    (∀ j : Nat, ∀ r : HttpResponse α, j ≤ N →
      (∀ i : Nat, i < j → exceptIsError (attemptStep net i) = true) →
      attemptStep net j = Except.ok r →
      (request_with_retry net N b).attempts = j + 1 ∧
      (request_with_retry net N b).result = Except.ok (some r)) := by
  constructor
  · intro e hfail hlast
    rw [request_with_retry_fail_eq net N b e hfail hlast]
    exact ⟨rfl, rfl⟩
  · intro j r hjN hfail hok
    rw [request_with_retry_success_eq net N j b r hjN hfail hok]
    exact ⟨rfl, rfl⟩

/-- Witness for C1 at concrete transports: one that always fails
(3 attempts for `max_retries = 2`, final error propagated) and one that
succeeds on the second attempt (2 attempts, response returned). -/
theorem request_with_retry_attempt_counts_witness :
    ((request_with_retry (α := Unit) (fun _ => Except.error "boom") 2 1).attempts = 3 ∧
     (request_with_retry (α := Unit) (fun _ => Except.error "boom") 2 1).result =
       Except.error "boom") ∧
    ((request_with_retry (α := Unit)
        (fun i => if i < 1 then Except.error "down" else Except.ok ⟨200, []⟩) 2 1).attempts = 2 ∧
     (request_with_retry (α := Unit)
        (fun i => if i < 1 then Except.error "down" else Except.ok ⟨200, []⟩) 2 1).result =
       Except.ok (some ⟨200, []⟩)) := by
  constructor
  · exact (request_with_retry_attempt_counts (α := Unit)
      (fun _ => Except.error "boom") 2 1).1 "boom"
      (by intro i hi; rfl) rfl
  · exact (request_with_retry_attempt_counts (α := Unit)
      (fun i => if i < 1 then Except.error "down" else Except.ok ⟨200, []⟩) 2 1).2 1 ⟨200, []⟩
      (by decide)
      (by intro i hi; interval_cases i; decide)
      (by decide)

/-- **C4.** In `request_with_retry`, after every failed attempt that is not
the final one the loop sleeps exactly `backoff_factor * 2 ^ attempt` seconds
(`attempt` zero-indexed), and no sleep follows the final attempt's failure:
when all attempts fail the recorded sleeps are exactly
`b * 2^0, b * 2^1, ..., b * 2^(N-1)`, and when the first success is at
zero-indexed attempt `j` they are `b * 2^0, ..., b * 2^(j-1)`. -/
theorem request_with_retry_backoff_sleeps
    (net : Int → Except String (HttpResponse α)) (N : Nat) (b : ℚ) :
    ((∀ i : Nat, i ≤ N → exceptIsError (attemptStep net i) = true) →
      (request_with_retry net N b).sleeps =
        (List.range N).map (fun i : Nat => b * (2 : ℚ) ^ (i : ℤ))) ∧
    (∀ j : Nat, ∀ r : HttpResponse α, j ≤ N →
      (∀ i : Nat, i < j → exceptIsError (attemptStep net i) = true) →
      attemptStep net j = Except.ok r →
      (request_with_retry net N b).sleeps =
        (List.range j).map (fun i : Nat => b * (2 : ℚ) ^ (i : ℤ))) := by
  constructor
  · intro hfail
    have hN := hfail N (le_refl N)
    cases hlast : attemptStep net (N : Int) with
    | ok r => rw [hlast] at hN; simp [exceptIsError] at hN
    | error e =>
      rw [request_with_retry_fail_eq net N b e hfail hlast]
  · intro j r hjN hfail hok
    rw [request_with_retry_success_eq net N j b r hjN hfail hok]

/-- Witness for C4: with `max_retries = 2` and `backoff_factor = 3`, a
transport failing every attempt sleeps `3, 6` (and not after the final
failure); one succeeding on the second attempt sleeps just `3`. -/
theorem request_with_retry_backoff_sleeps_witness :
    ((request_with_retry (α := Unit) (fun _ => Except.error "boom") 2 3).sleeps = [3, 6]) ∧
    ((request_with_retry (α := Unit)
        (fun i => if i < 1 then Except.error "down" else Except.ok ⟨200, []⟩) 2 3).sleeps = [3]) := by
  constructor
  · exact ((request_with_retry_backoff_sleeps (α := Unit)
      (fun _ => Except.error "boom") 2 3).1 (by intro i hi; rfl)).trans
      (by norm_num [List.range_succ])
  · exact ((request_with_retry_backoff_sleeps (α := Unit)
      (fun i => if i < 1 then Except.error "down" else Except.ok ⟨200, []⟩) 2 3).2 1 ⟨200, []⟩
      (by decide)
      (by intro i hi; interval_cases i; decide)
      (by decide)).trans (by norm_num [List.range_succ])

/-- **C3 counterexample.** With `max_retries = -1` (a legal Python `int`
argument), `range(max_retries + 1)` is empty, the loop body never runs, and
the statement `return None` after the loop is reached: the call returns
`None` rather than a response or an exception. -/
theorem request_with_retry_neg_retries_returns_none :
    (request_with_retry (α := Unit) (fun _ => Except.error "boom") (-1) 1).result =
      Except.ok none := rfl

/-- **C3 (amended).** For every `max_retries ≥ 0`, `request_with_retry`
never returns `None`: the result is either a response that passed the
non-2xx check or a propagated exception — the `return None` after the loop
is unreachable. -/
theorem request_with_retry_result_ne_none
    (net : Int → Except String (HttpResponse α)) (mr : Int) (b : ℚ)
    (h : 0 ≤ mr) :
    (request_with_retry net mr b).result ≠ Except.ok none := by
  obtain ⟨n, rfl⟩ := Int.eq_ofNat_of_zero_le h
  apply retryLoop_result_ne_none
  · have : ((n : Int) + 1) = Int.ofNat (n + 1) := by simp
    rw [this, pyRange_toNat]
    simp
  · exact pyRange_succ_getLast n

/-- Witness for the amended C3 at `max_retries = 0`. -/
theorem request_with_retry_result_ne_none_witness :
    (0 : Int) ≤ 0 ∧
    (request_with_retry (α := Unit) (fun _ => Except.error "x") 0 1).result ≠
      Except.ok none :=
  ⟨by decide, request_with_retry_result_ne_none (fun _ => Except.error "x") 0 1 (by decide)⟩

/-! ## Claim theorems: download, auth, upload -/

/-- Writing the non-empty chunks in order produces exactly the concatenated
body. -/
theorem streamChunks_eq_flatten (chunks : List (List α)) :
    streamChunks chunks = chunks.flatten := by
  suffices h : ∀ acc : List α,
      chunks.foldl (fun acc c => if c.isEmpty then acc else acc ++ c) acc =
        acc ++ chunks.flatten by
    simpa [streamChunks] using h []
  induction chunks with
  | nil => intro acc; simp
  | cons c rest ih =>
    intro acc
    cases c with
    | nil => simp [ih]
    | cons x xs => simp [ih, List.append_assoc]

/-- **C5.** `download_file` never propagates an exception: every call returns
`Except.ok` of a boolean flag. It returns `false` on every failure mode
(transport error, non-2xx status caught by `raise_for_status`, file open or
write error), and it returns `true` exactly when the transport and the file
system succeeded, in which case the written file content is the whole body
(the concatenation of all chunks). -/
theorem download_file_boolean_contract
    (netResult : Except String (HttpResponse α)) (openResult : Except String Unit) :
    (∃ flag written, download_file netResult openResult = Except.ok (flag, written)) ∧
    (∀ e, netResult = Except.error e →
      download_file netResult openResult = Except.ok (false, [])) ∧
    (∀ r, netResult = Except.ok r → 400 ≤ r.status → r.status < 600 →
      download_file netResult openResult = Except.ok (false, [])) ∧
    (∀ e, openResult = Except.error e →
      download_file netResult openResult = Except.ok (false, [])) ∧
    (∀ r, netResult = Except.ok r → ¬(400 ≤ r.status ∧ r.status < 600) →
      openResult = Except.ok () →
      download_file netResult openResult = Except.ok (true, r.chunks.flatten)) ∧
    (∀ written, download_file netResult openResult = Except.ok (true, written) →
      ∃ r, netResult = Except.ok r ∧ written = r.chunks.flatten) := by
  refine ⟨?_, ?_, ?_, ?_, ?_, ?_⟩
  · cases netResult with
    | error e => exact ⟨false, [], rfl⟩
    | ok r =>
      by_cases hs : 400 ≤ r.status ∧ r.status < 600
      · exact ⟨false, [], by simp [download_file, raise_for_status, hs]⟩
      · cases openResult with
        | error e => exact ⟨false, [], by simp [download_file, raise_for_status, hs]⟩
        | ok u =>
          exact ⟨true, streamChunks r.chunks,
            by simp [download_file, raise_for_status, hs]⟩
  · intro e he; subst he; rfl
  · intro r hr h4 h6
    subst hr
    simp [download_file, raise_for_status, h4, h6]
  · intro e he
    subst he
    cases netResult with
    | error e2 => rfl
    | ok r =>
      by_cases hs : 400 ≤ r.status ∧ r.status < 600 <;>
        simp [download_file, raise_for_status, hs]
  · intro r hr hs ho
    subst hr; subst ho
    simp [download_file, raise_for_status, hs, streamChunks_eq_flatten]
  · intro written hw
    cases netResult with
    | error e => simp [download_file] at hw
    | ok r =>
      by_cases hs : 400 ≤ r.status ∧ r.status < 600
      · simp [download_file, raise_for_status, hs] at hw
      · cases openResult with
        | error e => simp [download_file, raise_for_status, hs] at hw
        | ok u =>
          simp [download_file, raise_for_status, hs,
            streamChunks_eq_flatten] at hw
          exact ⟨r, rfl, hw.symm⟩

/-- Witness for C5: a successful streaming download writes the whole body and
returns `true`; an unreachable host yields `false` with no exception. -/
theorem download_file_boolean_contract_witness :
    download_file (α := Nat) (Except.ok ⟨200, [[1], [], [2, 3]]⟩) (Except.ok ()) =
      Except.ok (true, [1, 2, 3]) ∧
    download_file (α := Nat) (Except.error "ConnectionError") (Except.ok ()) =
      Except.ok (false, []) := by
  constructor
  · exact ((download_file_boolean_contract (α := Nat)
      (Except.ok ⟨200, [[1], [], [2, 3]]⟩) (Except.ok ())).2.2.2.2.1
        ⟨200, [[1], [], [2, 3]]⟩ rfl (by decide) rfl).trans (by decide)
  · exact (download_file_boolean_contract (α := Nat)
      (Except.error "ConnectionError") (Except.ok ())).2.1 "ConnectionError" rfl

/-- **C7.** `set_auth` with an unrecognized mode, or with a recognized mode
whose credential parameters are missing (`None`) or empty strings, raises no
error and leaves the session state (auth and headers) completely unchanged. -/
theorem set_auth_invalid_noop (s : Session) (t : String) (kw : AuthKwargs)
    (h : (t ≠ "basic" ∧ t ≠ "bearer" ∧ t ≠ "api_key") ∨
         (t = "basic" ∧ (truthy kw.username = false ∨ truthy kw.password = false)) ∨
         (t = "bearer" ∧ truthy kw.token = false) ∨
         (t = "api_key" ∧ truthy kw.api_key = false)) :
    set_auth s t kw = s := by
  rcases h with ⟨h1, h2, h3⟩ | ⟨rfl, h⟩ | ⟨rfl, h⟩ | ⟨rfl, h⟩
  · simp [set_auth, h1, h2, h3]
  · rcases h with h | h <;> simp [set_auth, h]
  · simp [set_auth, h]
  · simp [set_auth, h]

/-- Witness for C7: an unknown mode, `basic` with a missing password, and
`bearer` with an empty token all leave a session untouched. -/
theorem set_auth_invalid_noop_witness :
    set_auth ⟨none, [("Accept", "text/html")]⟩ "digest" {} =
      ⟨none, [("Accept", "text/html")]⟩ ∧
    set_auth ⟨none, []⟩ "basic" { username := some "alice" } = ⟨none, []⟩ ∧
    set_auth ⟨none, []⟩ "bearer" { token := some "" } = ⟨none, []⟩ :=
  ⟨set_auth_invalid_noop _ _ _ (Or.inl (by refine ⟨?_, ?_, ?_⟩ <;> decide)),
   set_auth_invalid_noop _ _ _ (Or.inr (Or.inl ⟨rfl, Or.inr rfl⟩)),
   set_auth_invalid_noop _ _ _ (Or.inr (Or.inr (Or.inl ⟨rfl, rfl⟩)))⟩

/-- **C8.** In `upload_file`, whenever the file open succeeds the opened
handle is closed on every exit path: both when the POST returns a response
and when it raises, exactly one handle is opened and exactly one is closed,
and the call's outcome is exactly the POST's outcome. -/
theorem upload_file_closes_handle (openResult : Except String Unit)
    (postResult : Except String ρ) (h : openResult = Except.ok ()) :
    (upload_file openResult postResult).openedHandles = 1 ∧
    (upload_file openResult postResult).closedHandles = 1 ∧
    (upload_file openResult postResult).result = postResult := by
  subst h
  cases postResult <;> simp [upload_file]

/-- Witness for C8: the handle count is balanced both when the POST returns
and when it raises. -/
theorem upload_file_closes_handle_witness :
    ((upload_file (ρ := Nat) (Except.ok ()) (Except.ok 7)).closedHandles = 1 ∧
     (upload_file (ρ := Nat) (Except.ok ()) (Except.ok 7)).openedHandles = 1) ∧
    ((upload_file (ρ := Nat) (Except.ok ()) (Except.error "ConnectionError")).closedHandles = 1 ∧
     (upload_file (ρ := Nat) (Except.ok ()) (Except.error "ConnectionError")).openedHandles = 1) :=
  ⟨⟨(upload_file_closes_handle _ _ rfl).2.1, (upload_file_closes_handle _ _ rfl).1⟩,
   ⟨(upload_file_closes_handle _ _ rfl).2.1, (upload_file_closes_handle _ _ rfl).1⟩⟩

/-- **C6.** `parse_response` never raises: with format `json` it returns the
decoded value on a valid body and the fallback mapping
`{"error": "Invalid JSON response", "content": <raw text>}` on a body that
fails JSON decoding; with `text`, `bytes`, or any unrecognized format it
returns the corresponding raw representation. -/
theorem parse_response_never_raises (r : PResponse) (fmt : String) :
    (∃ v, parse_response r fmt = Except.ok v) ∧
    (∀ e, jsonLoads r.text = Except.error e →
      parse_response r "json" = Except.ok (ParsedBody.jsonVal (JsonV.obj
        [("error", JsonV.str "Invalid JSON response"),
         ("content", JsonV.str r.text)]))) ∧
    (∀ v, jsonLoads r.text = Except.ok v →
      parse_response r "json" = Except.ok (ParsedBody.jsonVal v)) ∧
    parse_response r "text" = Except.ok (ParsedBody.textVal r.text) ∧
    parse_response r "bytes" = Except.ok (ParsedBody.bytesVal r.content) ∧
    (fmt ≠ "json" → fmt ≠ "text" → fmt ≠ "bytes" →
      parse_response r fmt = Except.ok (ParsedBody.textVal r.text)) := by
  refine ⟨?_, ?_, ?_, ?_, ?_, ?_⟩
  · by_cases h1 : fmt = "json"
    · subst h1
      cases hj : jsonLoads r.text <;> simp [parse_response, hj]
    · by_cases h2 : fmt = "text"
      · subst h2; simp [parse_response]
      · by_cases h3 : fmt = "bytes" <;> simp [parse_response, h1, h2, h3]
  · intro e he; simp [parse_response, he]
  · intro v hv; simp [parse_response, hv]
  · simp [parse_response]
  · simp [parse_response]
  · intro h1 h2 h3; simp [parse_response, h1, h2, h3]

/-- Witness for C6: the body `not json` produces the fallback mapping, the
body `{"a":1}` decodes to `{"a": 1}`, and the other formats return the raw
representations. -/
theorem parse_response_never_raises_witness :
    parse_response ⟨"not json", []⟩ "json" =
      Except.ok (ParsedBody.jsonVal (JsonV.obj
        [("error", JsonV.str "Invalid JSON response"),
         ("content", JsonV.str "not json")])) ∧
    parse_response ⟨"\x7b\"a\":1\x7d", []⟩ "json" =
      Except.ok (ParsedBody.jsonVal (JsonV.obj [("a", JsonV.intNum 1)])) ∧
    parse_response ⟨"hi", [104, 105]⟩ "bytes" =
      Except.ok (ParsedBody.bytesVal [104, 105]) ∧
    parse_response ⟨"hi", [104, 105]⟩ "xml" =
      Except.ok (ParsedBody.textVal "hi") := by
  refine ⟨?_, ?_, ?_, ?_⟩
  · exact (parse_response_never_raises ⟨"not json", []⟩ "json").2.1 "Expecting value" rfl
  · exact (parse_response_never_raises ⟨"\x7b\"a\":1\x7d", []⟩ "json").2.2.1
      (JsonV.obj [("a", JsonV.intNum 1)]) rfl
  · exact (parse_response_never_raises ⟨"hi", [104, 105]⟩ "bytes").2.2.2.2.1
  · exact (parse_response_never_raises ⟨"hi", [104, 105]⟩ "xml").2.2.2.2.2
      (by decide) (by decide) (by decide)

theorem startsWithSeq_length_le {sep s : List Char}
    (h : startsWithSeq sep s = true) : sep.length ≤ s.length := by
  induction sep generalizing s with
  | nil => simp
  | cons p ps ih =>
    cases s with
    | nil => simp [startsWithSeq] at h
    | cons c cs =>
      simp only [startsWithSeq, Bool.and_eq_true] at h
      simpa using ih h.2

/-! ## Lemmas about `splitSeq` and the dict model -/

theorem splitSeq_ne_nil (sep s : List Char) : splitSeq sep s ≠ [] := by
  rw [splitSeq]
  split
  · simp
  · split
    · simp
    · split <;> simp

theorem splitSeq_no_occur {c : Char} {s : List Char} (h : c ∉ s) :
    splitSeq [c] s = [s] := by
  induction s with
  | nil => rw [splitSeq]; simp [startsWithSeq]
  | cons x rest ih =>
    have hcx : ¬ (c = x) := fun hc => h (hc ▸ List.mem_cons_self c rest)
    have hrest : c ∉ rest := fun hr => h (List.mem_cons_of_mem x hr)
    rw [splitSeq, dif_neg (by simp [startsWithSeq, hcx])]
    show (match splitSeq [c] rest with
          | [] => [[x]]
          | hd :: t => (x :: hd) :: t) = [x :: rest]
    rw [ih hrest]

theorem splitSeq_append (c : Char) (a b : List Char) :
    splitSeq [c] (a ++ c :: b) = splitSeq [c] a ++ splitSeq [c] b := by
  induction a with
  | nil =>
    rw [List.nil_append, splitSeq]
    have : startsWithSeq [c] (c :: b) = true := by simp [startsWithSeq]
    rw [dif_pos ⟨by simp, this⟩]
    rw [show splitSeq [c] [] = [[]] from by rw [splitSeq]; simp [startsWithSeq]]
    simp
  | cons x a2 ih =>
    by_cases hcx : c = x
    · subst hcx
      conv_lhs => rw [List.cons_append, splitSeq]
      rw [dif_pos ⟨by simp, by simp [startsWithSeq]⟩]
      conv_rhs => rw [splitSeq]
      rw [dif_pos ⟨by simp, by simp [startsWithSeq]⟩]
      simp only [List.length_singleton, List.drop_succ_cons, List.drop_zero, List.cons_append]
      rw [ih]
    · cases hsp : splitSeq [c] a2 with
      | nil => exact absurd hsp (splitSeq_ne_nil [c] a2)
      | cons h0 t0 =>
        have hL : splitSeq [c] (x :: a2 ++ c :: b) = (x :: h0) :: (t0 ++ splitSeq [c] b) := by
          rw [List.cons_append, splitSeq, dif_neg (by simp [startsWithSeq, hcx])]
          show (match splitSeq [c] (a2 ++ c :: b) with
                | [] => [[x]]
                | hd :: t => (x :: hd) :: t) = (x :: h0) :: (t0 ++ splitSeq [c] b)
          rw [ih, hsp, List.cons_append]
        have hR : splitSeq [c] (x :: a2) = (x :: h0) :: t0 := by
          rw [splitSeq, dif_neg (by simp [startsWithSeq, hcx])]
          show (match splitSeq [c] a2 with
                | [] => [[x]]
                | hd :: t => (x :: hd) :: t) = (x :: h0) :: t0
          rw [hsp]
        rw [hL, hR]
        simp

theorem pyDictSet_pyDictSet [DecidableEq κ] (l : List (κ × β)) (k : κ) (x y : β) :
    pyDictSet (pyDictSet l k x) k y = pyDictSet l k y := by
  induction l with
  | nil => simp [pyDictSet]
  | cons kv rest ih =>
    obtain ⟨k0, v0⟩ := kv
    by_cases h : k0 = k
    · subst h; simp [pyDictSet]
    · simp [pyDictSet, h, ih]

theorem pyDictGet_pyDictSet [DecidableEq κ] (l : List (κ × β)) (k : κ) (x : β) :
    pyDictGet (pyDictSet l k x) k = some x := by
  induction l with
  | nil => simp [pyDictSet, pyDictGet]
  | cons kv rest ih =>
    obtain ⟨k0, v0⟩ := kv
    by_cases h : k0 = k
    · subst h; simp [pyDictSet, pyDictGet]
    · simp [pyDictSet, pyDictGet, h, ih]

theorem pyDictSet_self [DecidableEq κ] {l : List (κ × β)} {k : κ} {v : β}
    (h : pyDictGet l k = some v) : pyDictSet l k v = l := by
  induction l with
  | nil => simp [pyDictGet] at h
  | cons kv rest ih =>
    obtain ⟨k0, v0⟩ := kv
    by_cases h0 : k0 = k
    · subst h0
      have h2 : v0 = v := by simpa [pyDictGet] using h
      subst h2
      simp [pyDictSet]
    · simp only [pyDictGet, if_neg h0] at h
      simp [pyDictSet, h0, ih h]

theorem pyDictSet_fresh [DecidableEq κ] {l : List (κ × β)} {k : κ}
    (h : pyDictGet l k = none) (v : β) : pyDictSet l k v = l ++ [(k, v)] := by
  induction l with
  | nil => simp [pyDictSet]
  | cons kv rest ih =>
    obtain ⟨k0, v0⟩ := kv
    by_cases h0 : k0 = k
    · subst h0; simp [pyDictGet] at h
    · simp only [pyDictGet, if_neg h0] at h
      simp [pyDictSet, h0, ih h]

theorem pyDictGet_append [DecidableEq κ] (l1 l2 : List (κ × β)) (k : κ) :
    pyDictGet (l1 ++ l2) k =
      match pyDictGet l1 k with
      | some v => some v
      | none => pyDictGet l2 k := by
  induction l1 with
  | nil => simp [pyDictGet]
  | cons kv rest ih =>
    obtain ⟨k0, v0⟩ := kv
    by_cases h0 : k0 = k
    · subst h0; simp [pyDictGet]
    · simp [pyDictGet, h0, ih]

theorem pyDict_go_nodup [DecidableEq κ] (l acc : List (κ × β))
    (hnodup : (l.map Prod.fst).Nodup)
    (hfresh : ∀ kv ∈ l, pyDictGet acc kv.1 = none) :
    l.foldl (fun acc kv => pyDictSet acc kv.1 kv.2) acc = acc ++ l := by
  induction l generalizing acc with
  | nil => simp
  | cons kv rest ih =>
    obtain ⟨k, v⟩ := kv
    simp only [List.foldl_cons]
    rw [pyDictSet_fresh (hfresh (k, v) (by simp) ) v]
    rw [ih (acc ++ [(k, v)])
      (by simpa using hnodup.of_cons)
      (by
        intro kv2 hkv2
        rw [pyDictGet_append]
        rw [hfresh kv2 (List.mem_cons_of_mem _ hkv2)]
        have hne : kv2.1 ≠ k := by
          simp only [List.map_cons, List.nodup_cons, List.mem_map] at hnodup
          intro heq
          exact hnodup.1 ⟨kv2, hkv2, heq⟩
        simp [pyDictGet, Ne.symm hne])]
    simp

/-- `dict(items)` is the identity on lists with pairwise distinct keys. -/
theorem pyDict_nodup [DecidableEq κ] (l : List (κ × β))
    (hnodup : (l.map Prod.fst).Nodup) : pyDict l = l := by
  have h := pyDict_go_nodup l [] hnodup (by intro kv _; rfl)
  simpa [pyDict] using h

theorem containsSeq_single (c : Char) (s : List Char) :
    containsSeq [c] s = true ↔ c ∈ s := by
  induction s with
  | nil => simp [containsSeq, startsWithSeq]
  | cons x rest ih =>
    simp only [containsSeq, startsWithSeq, Bool.or_eq_true, Bool.and_eq_true,
      decide_eq_true_eq, ih, List.mem_cons]
    tauto

theorem strMk_data (s : String) : String.mk s.data = s := rfl

theorem strNe_empty_iff (s : String) : s ≠ "" ↔ s.data ≠ [] := by
  constructor
  · intro h hd
    exact h (String.ext (by rw [hd]))
  · intro h hs
    exact h (by rw [hs])

theorem joinPath_append (sep pk : String) (p1 p2 : List String) :
    joinPath sep pk (p1 ++ p2) = joinPath sep (joinPath sep pk p1) p2 :=
  List.foldl_append _ _ _ _

theorem joinPath_ne_empty (sep : String) {pk : String} (hpk : pk ≠ "")
    (p : List String) : joinPath sep pk p ≠ "" := by
  induction p generalizing pk with
  | nil => exact hpk
  | cons k p2 ih =>
    rw [joinPath, List.foldl_cons, joinKeyStep, if_neg hpk]
    exact ih (by
      rw [strNe_empty_iff]
      simp only [String.data_append]
      rw [strNe_empty_iff] at hpk
      simp [hpk])

theorem joinPath_empty_cons (sep k : String) (p : List String) :
    joinPath sep "" (k :: p) = joinPath sep k p := by
  rw [joinPath, List.foldl_cons, joinKeyStep, if_pos rfl]
  rfl

theorem pySplit_no_occur {c : Char} {sep s : String} (hsep : sep.data = [c])
    (h : c ∉ s.data) : pySplit s sep = [s] := by
  rw [pySplit]
  show (splitSeq sep.data s.data).map (fun cs => String.mk cs) = [s]
  rw [hsep, splitSeq_no_occur h]
  simp [strMk_data]

theorem pySplit_append_key {c : Char} {sep k : String} (a : String)
    (hsep : sep.data = [c]) (hk : c ∉ k.data) :
    pySplit (a ++ sep ++ k) sep = pySplit a sep ++ [k] := by
  rw [pySplit]
  show (splitSeq sep.data (a ++ sep ++ k).data).map (fun cs => String.mk cs) =
    pySplit a sep ++ [k]
  simp only [String.data_append, hsep]
  rw [show a.data ++ [c] ++ k.data = a.data ++ c :: k.data from by simp]
  rw [splitSeq_append, splitSeq_no_occur hk]
  rw [pySplit]
  show _ = (splitSeq sep.data a.data).map (fun cs => String.mk cs) ++ [k]
  rw [hsep]
  simp [strMk_data]

theorem pySplit_joinPath_aux {c : Char} {sep : String} (hsep : sep.data = [c])
    (p : List String) (hp : ∀ k ∈ p, GoodSeg c k) :
    ∀ pk : String, pk ≠ "" →
      pySplit (joinPath sep pk p) sep = pySplit pk sep ++ p := by
  induction p with
  | nil => intro pk hpk; simp [joinPath]
  | cons k p2 ih =>
    intro pk hpk
    obtain ⟨hk1, hk2⟩ := hp k (by simp)
    rw [joinPath, List.foldl_cons, joinKeyStep, if_neg hpk]
    have hne : pk ++ sep ++ k ≠ "" := by
      rw [strNe_empty_iff]
      simp only [String.data_append]
      rw [strNe_empty_iff] at hpk
      simp [hpk]
    rw [show List.foldl (joinKeyStep sep) (pk ++ sep ++ k) p2 =
        joinPath sep (pk ++ sep ++ k) p2 from rfl]
    rw [ih (fun k2 hk2m => hp k2 (List.mem_cons_of_mem k hk2m)) _ hne]
    rw [pySplit_append_key pk hsep hk2]
    simp

theorem pySplit_joinPath {c : Char} {sep : String} (hsep : sep.data = [c])
    {p : List String} (hne : p ≠ []) (hp : ∀ k ∈ p, GoodSeg c k) :
    pySplit (joinPath sep "" p) sep = p := by
  cases p with
  | nil => exact absurd rfl hne
  | cons k p2 =>
    obtain ⟨hk1, hk2⟩ := hp k (by simp)
    rw [joinPath_empty_cons]
    rw [pySplit_joinPath_aux hsep p2 (fun k2 h2 => hp k2 (List.mem_cons_of_mem k h2)) k hk1]
    rw [pySplit_no_occur hsep hk2]
    rfl

theorem pathsList_shape (l : List (String × PyObj α)) :
    ∀ pa ∈ pathsList l, ∃ k p2, pa.1 = k :: p2 ∧ k ∈ l.map Prod.fst := by
  induction l with
  | nil => simp [pathsList]
  | cons kv rest ih =>
    obtain ⟨k, v⟩ := kv
    intro pa hpa
    rw [pathsList, List.mem_append] at hpa
    cases hpa with
    | inl h =>
      obtain ⟨pa2, _, rfl⟩ := List.mem_map.mp h
      exact ⟨k, pa2.1, rfl, by simp⟩
    | inr h =>
      obtain ⟨k2, p2, hp, hk2⟩ := ih pa h
      exact ⟨k2, p2, hp, by simp [hk2]⟩

mutual

theorem pathsObj_ne_nil (sep : String) (v : PyObj α) (hv : wfVal sep v = true) :
    pathsObj v ≠ [] := by
  cases v with
  | leaf a => simp [pathsObj]
  | dict l =>
    cases l with
    | nil => simp [wfVal] at hv
    | cons kv rest =>
      obtain ⟨k, v2⟩ := kv
      have h2 : wfEntries sep ((k, v2) :: rest) = true := by
        simp only [wfVal, Bool.and_eq_true] at hv
        exact hv.2
      have hv2 : wfVal sep v2 = true := by
        simp only [wfEntries, Bool.and_eq_true] at h2
        exact h2.1.2
      show pathsList ((k, v2) :: rest) ≠ []
      rw [pathsList]
      intro hcontra
      rcases List.append_eq_nil.mp hcontra with ⟨hmap, _⟩
      exact pathsObj_ne_nil sep v2 hv2 (List.map_eq_nil.mp hmap)

end

mutual

theorem pathsObj_goodsegs {c : Char} {sep : String} (hsep : sep.data = [c])
    (v : PyObj α) (hv : wfVal sep v = true) :
    ∀ pa ∈ pathsObj v, ∀ k ∈ pa.1, GoodSeg c k := by
  cases v with
  | leaf a => intro pa hpa k hk; simp [pathsObj] at hpa; simp [hpa] at hk
  | dict l =>
    intro pa hpa
    have hl : wfEntries sep l = true := by
      cases l with
      | nil => simp [wfEntries]
      | cons kv rest =>
        simp only [wfVal, Bool.and_eq_true] at hv
        exact hv.2
    exact pathsList_goodsegs hsep l hl pa hpa

theorem pathsList_goodsegs {c : Char} {sep : String} (hsep : sep.data = [c])
    (l : List (String × PyObj α)) (hl : wfEntries sep l = true) :
    ∀ pa ∈ pathsList l, ∀ k ∈ pa.1, GoodSeg c k := by
  cases l with
  | nil => intro pa hpa; simp [pathsList] at hpa
  | cons kv rest =>
    obtain ⟨k0, v0⟩ := kv
    simp only [wfEntries, Bool.and_eq_true, decide_eq_true_eq] at hl
    obtain ⟨⟨⟨⟨hk0ne, hk0c⟩, _⟩, hv0⟩, hrest⟩ := hl
    intro pa hpa k hk
    rw [pathsList, List.mem_append] at hpa
    cases hpa with
    | inl h =>
      obtain ⟨pa2, hpa2, rfl⟩ := List.mem_map.mp h
      simp only [List.mem_cons] at hk
      cases hk with
      | inl hkk =>
        subst hkk
        refine ⟨hk0ne, ?_⟩
        intro hcmem
        rw [← containsSeq_single c k.data] at hcmem
        rw [show sep.toList = [c] from hsep, show k.toList = k.data from rfl] at hk0c
        rw [hk0c] at hcmem
        exact Bool.false_ne_true hcmem
      | inr hkm =>
        exact pathsObj_goodsegs hsep v0 hv0 pa2 hpa2 k hkm
    | inr h =>
      exact pathsList_goodsegs hsep rest hrest pa h k hk

end

mutual

theorem pathsObj_nodup {c : Char} {sep : String} (hsep : sep.data = [c])
    (v : PyObj α) (hv : wfVal sep v = true) :
    ((pathsObj v).map Prod.fst).Nodup := by
  cases v with
  | leaf a => simp [pathsObj]
  | dict l =>
    have hl : wfEntries sep l = true := by
      cases l with
      | nil => simp [wfEntries]
      | cons kv rest =>
        simp only [wfVal, Bool.and_eq_true] at hv
        exact hv.2
    exact pathsList_nodup hsep l hl

theorem pathsList_nodup {c : Char} {sep : String} (hsep : sep.data = [c])
    (l : List (String × PyObj α)) (hl : wfEntries sep l = true) :
    ((pathsList l).map Prod.fst).Nodup := by
  cases l with
  | nil => simp [pathsList]
  | cons kv rest =>
    obtain ⟨k0, v0⟩ := kv
    simp only [wfEntries, Bool.and_eq_true, decide_eq_true_eq] at hl
    obtain ⟨⟨⟨⟨hk0ne, hk0c⟩, hall⟩, hv0⟩, hrest⟩ := hl
    rw [pathsList, List.map_append, List.map_map]
    apply List.Nodup.append
    · rw [show (Prod.fst ∘ fun pa : List String × α => (k0 :: pa.1, pa.2)) =
          ((fun p => k0 :: p) ∘ Prod.fst) from rfl, ← List.map_map]
      exact List.Nodup.map (fun a b hab => by simpa using hab)
        (pathsObj_nodup hsep v0 hv0)
    · exact pathsList_nodup hsep rest hrest
    · intro p hp1 hp2
      simp only [List.mem_map, Function.comp_apply] at hp1
      obtain ⟨pa1, _, rfl⟩ := hp1
      simp only [List.mem_map] at hp2
      obtain ⟨pa2, hpa2, heq⟩ := hp2
      obtain ⟨k2, p2, hshape, hk2mem⟩ := pathsList_shape rest pa2 hpa2
      rw [hshape] at heq
      have hk2 : k2 = k0 := by
        have h3 := congrArg (fun t => t.headD "") heq
        simpa using h3
      obtain ⟨kv2, hkv2mem, hkv2eq⟩ := List.mem_map.mp hk2mem
      have h4 := List.all_eq_true.mp hall kv2 hkv2mem
      simp only [decide_eq_true_eq] at h4
      exact h4 (hkv2eq.trans hk2)

end

mutual

/-- `_flatten` on a well-formed value with a well-formed accumulated parent
key produces exactly the path-keyed entries, with each path joined onto the
parent key. -/
theorem flattenAux_eq_paths {c : Char} {sep : String} (hsep : sep.data = [c])
    (q : List String) (hq : ∀ k ∈ q, GoodSeg c k) (v : PyObj α)
    (hv : wfVal sep v = true) :
    flattenAux sep (joinPath sep "" q) v =
      (pathsObj v).map (fun pa => (joinPath sep "" (q ++ pa.1), pa.2)) := by
  cases v with
  | leaf a => simp [flattenAux, pathsObj]
  | dict l =>
    have hl : wfEntries sep l = true := by
      cases l with
      | nil => simp [wfVal] at hv
      | cons kv rest =>
        simp only [wfVal, Bool.and_eq_true] at hv
        exact hv.2
    rw [show flattenAux sep (joinPath sep "" q) (PyObj.dict l) =
        pyDict (flattenList sep (joinPath sep "" q) l) from rfl]
    rw [flattenList_eq_paths hsep q hq l hl]
    rw [show pathsObj (PyObj.dict l) = pathsList l from rfl]
    apply pyDict_nodup
    rw [List.map_map]
    rw [show (Prod.fst ∘ fun pa : List String × α => (joinPath sep "" (q ++ pa.1), pa.2)) =
        ((fun p => joinPath sep "" (q ++ p)) ∘ Prod.fst) from rfl, ← List.map_map]
    apply List.Nodup.map_on ?_ (pathsList_nodup hsep l hl)
    intro x hx y hy hxy
    obtain ⟨pax, hpax, hpaxeq⟩ := List.mem_map.mp hx
    obtain ⟨pay, hpay, hpayeq⟩ := List.mem_map.mp hy
    obtain ⟨kx, px2, hxs, _⟩ := pathsList_shape l pax hpax
    obtain ⟨ky, py2, hys, _⟩ := pathsList_shape l pay hpay
    have hxg : ∀ k ∈ q ++ x, GoodSeg c k := by
      intro k hk
      rcases List.mem_append.mp hk with hk | hk
      · exact hq k hk
      · exact pathsList_goodsegs hsep l hl pax hpax k (by rw [hpaxeq]; exact hk)
    have hyg : ∀ k ∈ q ++ y, GoodSeg c k := by
      intro k hk
      rcases List.mem_append.mp hk with hk | hk
      · exact hq k hk
      · exact pathsList_goodsegs hsep l hl pay hpay k (by rw [hpayeq]; exact hk)
    have hxne : q ++ x ≠ [] := by
      rw [← hpaxeq, hxs]
      simp
    have hyne : q ++ y ≠ [] := by
      rw [← hpayeq, hys]
      simp
    have hxsplit := pySplit_joinPath hsep hxne hxg
    have hysplit := pySplit_joinPath hsep hyne hyg
    have : q ++ x = q ++ y := by
      rw [← hxsplit, ← hysplit, hxy]
    exact List.append_cancel_left this

/-- The `items` loop of `_flatten` over a dict's entries, in path form. -/
theorem flattenList_eq_paths {c : Char} {sep : String} (hsep : sep.data = [c])
    (q : List String) (hq : ∀ k ∈ q, GoodSeg c k)
    (l : List (String × PyObj α)) (hl : wfEntries sep l = true) :
    flattenList sep (joinPath sep "" q) l =
      (pathsList l).map (fun pa => (joinPath sep "" (q ++ pa.1), pa.2)) := by
  cases l with
  | nil => simp [flattenList, pathsList]
  | cons kv rest =>
    obtain ⟨k0, v0⟩ := kv
    simp only [wfEntries, Bool.and_eq_true, decide_eq_true_eq] at hl
    obtain ⟨⟨⟨⟨hk0ne, hk0c⟩, hall⟩, hv0⟩, hrest⟩ := hl
    have hk0good : GoodSeg c k0 := by
      refine ⟨hk0ne, ?_⟩
      intro hcmem
      rw [← containsSeq_single c k0.data] at hcmem
      rw [show sep.toList = [c] from hsep, show k0.toList = k0.data from rfl] at hk0c
      rw [hk0c] at hcmem
      exact Bool.false_ne_true hcmem
    have hq2 : ∀ k ∈ q ++ [k0], GoodSeg c k := by
      intro k hk
      rcases List.mem_append.mp hk with hk | hk
      · exact hq k hk
      · simp only [List.mem_singleton] at hk
        subst hk
        exact hk0good
    have hkey : (if joinPath sep "" q = "" then k0 else joinPath sep "" q ++ sep ++ k0) =
        joinPath sep "" (q ++ [k0]) := by
      rw [joinPath_append]
      rfl
    rw [pathsList, List.map_append, List.map_map]
    rw [show flattenList sep (joinPath sep "" q) ((k0, v0) :: rest) =
        flattenAux sep
          (if joinPath sep "" q = "" then k0 else joinPath sep "" q ++ sep ++ k0) v0 ++
          flattenList sep (joinPath sep "" q) rest from rfl]
    rw [hkey]
    rw [flattenAux_eq_paths hsep (q ++ [k0]) hq2 v0 hv0]
    rw [flattenList_eq_paths hsep q hq rest hrest]
    congr 1
    apply List.map_congr_left
    intro pa hpa
    simp

end

theorem insertEntries_eq_pathEntries (sep : String) (d : List (String × PyObj α))
    (es : List (String × α)) :
    insertEntries sep d es =
      insertPathEntries d (es.map (fun ka => (pySplit ka.1 sep, ka.2))) := by
  induction es generalizing d with
  | nil => rfl
  | cons ka rest ih =>
    obtain ⟨key, a⟩ := ka
    simp only [insertEntries, insertPathEntries, List.map_cons]
    cases hres : insertPath d (pySplit key sep).dropLast ((pySplit key sep).getLastD "") a with
    | ok d2 => simp [hres, ih]
    | error e => simp [hres]

/-- `insertPath` step when the first path key is absent: a fresh sub-dict is
created, filled from empty, and appended under that key. -/
theorem insertPath_cons_none {acc : List (String × PyObj α)} {k : String}
    (hget : pyDictGet acc k = none) (ks : List String) (klast : String) (a : α) :
    insertPath acc (k :: ks) klast a =
      match insertPath ([] : List (String × PyObj α)) ks klast a with
      | Except.ok sub => Except.ok (pyDictSet acc k (PyObj.dict sub))
      | Except.error e => Except.error e := by
  rw [insertPath, hget]

/-- `insertPath` step when the first path key holds a sub-dict: the walk
continues inside it and the updated sub-dict replaces it. -/
theorem insertPath_cons_dict {acc m0 : List (String × PyObj α)} {k : String}
    (hget : pyDictGet acc k = some (PyObj.dict m0)) (ks : List String)
    (klast : String) (a : α) :
    insertPath acc (k :: ks) klast a =
      match insertPath m0 ks klast a with
      | Except.ok sub => Except.ok (pyDictSet acc k (PyObj.dict sub))
      | Except.error e => Except.error e := by
  rw [insertPath, hget]

/-- Inserting a batch of entries whose paths all start with key `k`, when
`k` currently holds a sub-dict, updates exactly that sub-dict. -/
theorem insertPathEntries_descend (k : String) (es : List (List String × α))
    (hne : ∀ pa ∈ es, pa.1 ≠ []) :
    ∀ (acc m0 : List (String × PyObj α)), pyDictGet acc k = some (PyObj.dict m0) →
    insertPathEntries acc (es.map (fun pa => (k :: pa.1, pa.2))) =
      match insertPathEntries m0 es with
      | Except.ok m2 => Except.ok (pyDictSet acc k (PyObj.dict m2))
      | Except.error e => Except.error e := by
  induction es with
  | nil =>
    intro acc m0 hget
    simp [insertPathEntries, pyDictSet_self hget]
  | cons pa rest ih =>
    intro acc m0 hget
    obtain ⟨p, a⟩ := pa
    have hp : p ≠ [] := hne (p, a) (by simp)
    obtain ⟨b, bs, rfl⟩ : ∃ b bs, p = b :: bs := by
      cases p with
      | nil => exact absurd rfl hp
      | cons b bs => exact ⟨b, bs, rfl⟩
    rw [List.map_cons, insertPathEntries]
    conv_rhs => rw [insertPathEntries]
    simp only [List.dropLast_cons₂, List.getLastD_cons]
    rw [insertPath_cons_dict hget]
    cases hstep : insertPath m0 (b :: bs).dropLast (bs.getLastD b) a with
    | error e => rfl
    | ok sub =>
      show insertPathEntries (pyDictSet acc k (PyObj.dict sub))
          (List.map (fun pa => (k :: pa.1, pa.2)) rest) =
        match insertPathEntries sub rest with
        | Except.ok m2 => Except.ok (pyDictSet acc k (PyObj.dict m2))
        | Except.error e => Except.error e
      rw [ih (fun pa2 h2 => hne pa2 (List.mem_cons_of_mem _ h2)) _ sub
        (pyDictGet_pyDictSet acc k _)]
      cases insertPathEntries sub rest with
      | ok m2 => simp [pyDictSet_pyDictSet]
      | error e => rfl

/-- When key `k` is absent, inserting an entry with path `k :: p` behaves as
if `k` already held an empty sub-dict. -/
theorem insertPathEntries_fresh_init (k : String) (acc : List (String × PyObj α))
    (hget : pyDictGet acc k = none) (p : List String) (hp : p ≠ []) (a : α)
    (rest : List (List String × α)) :
    insertPathEntries acc ((k :: p, a) :: rest) =
      insertPathEntries (pyDictSet acc k (PyObj.dict [])) ((k :: p, a) :: rest) := by
  obtain ⟨b, bs, rfl⟩ : ∃ b bs, p = b :: bs := by
    cases p with
    | nil => exact absurd rfl hp
    | cons b bs => exact ⟨b, bs, rfl⟩
  rw [insertPathEntries, insertPathEntries]
  simp only [List.dropLast_cons₂, List.getLastD_cons]
  rw [insertPath_cons_none hget,
    insertPath_cons_dict (pyDictGet_pyDictSet acc k (PyObj.dict []))]
  cases hstep : insertPath ([] : List (String × PyObj α)) (b :: bs).dropLast
      (bs.getLastD b) a with
  | error e => rfl
  | ok sub =>
    show insertPathEntries (pyDictSet acc k (PyObj.dict sub)) rest =
      insertPathEntries (pyDictSet (pyDictSet acc k (PyObj.dict [])) k (PyObj.dict sub)) rest
    rw [pyDictSet_pyDictSet]

theorem insertPathEntries_append (d : List (String × PyObj α))
    (es1 es2 : List (List String × α)) :
    insertPathEntries d (es1 ++ es2) =
      match insertPathEntries d es1 with
      | Except.ok d2 => insertPathEntries d2 es2
      | Except.error e => Except.error e := by
  induction es1 generalizing d with
  | nil => simp [insertPathEntries]
  | cons pa rest ih =>
    obtain ⟨ks, a⟩ := pa
    rw [List.cons_append, insertPathEntries, insertPathEntries]
    cases insertPath d ks.dropLast (ks.getLastD "") a with
    | ok d2 => exact ih d2
    | error e => rfl

mutual

/-- Inserting the whole flattened batch of one well-formed value under a
fresh key `k` appends exactly `(k, v)` to the accumulator. -/
theorem insertGroup {c : Char} {sep : String} (hsep : sep.data = [c])
    (v : PyObj α) (hv : wfVal sep v = true) :
    ∀ (acc : List (String × PyObj α)) (k : String), pyDictGet acc k = none →
      insertPathEntries acc ((pathsObj v).map (fun pa => (k :: pa.1, pa.2))) =
        Except.ok (acc ++ [(k, v)]) := by
  cases v with
  | leaf a =>
    intro acc k hget
    rw [show ((pathsObj (PyObj.leaf a)).map (fun pa => (k :: pa.1, pa.2))) =
        [([k], a)] from rfl]
    rw [insertPathEntries]
    rw [show insertPath acc ([k] : List String).dropLast
        (([k] : List String).getLastD "") a =
        Except.ok (pyDictSet acc k (PyObj.leaf a)) from rfl]
    rw [pyDictSet_fresh hget]
    rfl
  | dict m =>
    intro acc k hget
    have hm : wfEntries sep m = true := by
      cases m with
      | nil => simp [wfVal] at hv
      | cons kv rest =>
        simp only [wfVal, Bool.and_eq_true] at hv
        exact hv.2
    have hpne : pathsList m ≠ [] := pathsObj_ne_nil sep (PyObj.dict m) hv
    have hshape : ∀ pa ∈ pathsList m, pa.1 ≠ [] := by
      intro pa hpa
      obtain ⟨k2, p2, hsh, _⟩ := pathsList_shape m pa hpa
      rw [hsh]
      simp
    rw [show pathsObj (PyObj.dict m) = pathsList m from rfl]
    obtain ⟨⟨p1, a1⟩, es2, hes⟩ : ∃ pa es2, pathsList m = pa :: es2 := by
      cases hq : pathsList m with
      | nil => exact absurd hq hpne
      | cons pa es2 => exact ⟨pa, es2, rfl⟩
    have hp1 : p1 ≠ [] := hshape (p1, a1) (by rw [hes]; simp)
    rw [hes, List.map_cons]
    rw [insertPathEntries_fresh_init k acc hget p1 hp1 a1 _]
    rw [show ((k :: p1, a1) :: List.map (fun pa : List String × α => (k :: pa.1, pa.2)) es2) =
        (pathsList m).map (fun pa => (k :: pa.1, pa.2)) from by rw [hes]; simp]
    rw [insertPathEntries_descend k (pathsList m) hshape
      (pyDictSet acc k (PyObj.dict [])) [] (pyDictGet_pyDictSet acc k _)]
    rw [insertAllGroups hsep m hm [] (by intro kv _; rfl)]
    show Except.ok (pyDictSet (pyDictSet acc k (PyObj.dict [])) k (PyObj.dict ([] ++ m))) =
      Except.ok (acc ++ [(k, PyObj.dict m)])
    rw [List.nil_append, pyDictSet_pyDictSet, pyDictSet_fresh hget]

/-- Inserting the flattened batches of a well-formed entry list whose keys
are all fresh appends exactly those entries, in order. -/
theorem insertAllGroups {c : Char} {sep : String} (hsep : sep.data = [c])
    (l : List (String × PyObj α)) (hl : wfEntries sep l = true) :
    ∀ acc : List (String × PyObj α), (∀ kv ∈ l, pyDictGet acc kv.1 = none) →
      insertPathEntries acc (pathsList l) = Except.ok (acc ++ l) := by
  cases l with
  | nil =>
    intro acc _
    simp [pathsList, insertPathEntries]
  | cons kv rest =>
    obtain ⟨k0, v0⟩ := kv
    simp only [wfEntries, Bool.and_eq_true, decide_eq_true_eq] at hl
    obtain ⟨⟨⟨⟨hk0ne, hk0c⟩, hall⟩, hv0⟩, hrest⟩ := hl
    intro acc hfresh
    rw [pathsList, insertPathEntries_append]
    rw [insertGroup hsep v0 hv0 acc k0 (hfresh (k0, v0) (by simp))]
    show insertPathEntries (acc ++ [(k0, v0)]) (pathsList rest) =
      Except.ok (acc ++ (k0, v0) :: rest)
    rw [insertAllGroups hsep rest hrest (acc ++ [(k0, v0)]) (by
      intro kv2 hkv2
      rw [pyDictGet_append, hfresh kv2 (List.mem_cons_of_mem _ hkv2)]
      have h4 := List.all_eq_true.mp hall kv2 hkv2
      simp only [decide_eq_true_eq] at h4
      simp [pyDictGet, Ne.symm h4])]
    congr 1
    simp

end

/-- **C10 (amended).** For every nested dictionary whose keys are non-empty
strings not containing the separator and whose values are leaves or non-empty
well-formed dicts (no empty-dict values anywhere), and every
*single-character* separator, `unflatten_dict (flatten_dict d sep) sep`
returns `d` itself: flatten and unflatten are mutually inverse on such
inputs. -/
theorem flatten_unflatten_roundtrip {c : Char} (sep : String) (hsep : sep.data = [c])
    (l : List (String × PyObj α)) (hl : wfEntries sep l = true) :
    unflatten_dict (flatten_dict l sep) sep = Except.ok l := by
  have hsepne : sep ≠ "" := by
    rw [strNe_empty_iff, hsep]
    simp
  rw [unflatten_dict, if_neg hsepne]
  cases l with
  | nil => rfl
  | cons kv rest =>
    have hv : wfVal sep (PyObj.dict (kv :: rest)) = true := by
      simp [wfVal, hl]
    have hflat : flatten_dict (kv :: rest) sep =
        (pathsList (kv :: rest)).map (fun pa => (joinPath sep "" pa.1, pa.2)) := by
      rw [flatten_dict]
      rw [show ("" : String) = joinPath sep "" [] from rfl]
      rw [flattenAux_eq_paths hsep [] (by simp) (PyObj.dict (kv :: rest)) hv]
      rw [show pathsObj (PyObj.dict (kv :: rest)) = pathsList (kv :: rest) from rfl]
      apply List.map_congr_left
      intro pa hpa
      rfl
    rw [insertEntries_eq_pathEntries, hflat, List.map_map]
    have hpt : ∀ pa ∈ pathsList (kv :: rest),
        ((fun ka : String × α => (pySplit ka.1 sep, ka.2)) ∘
          (fun pa : List String × α => (joinPath sep "" pa.1, pa.2))) pa = id pa := by
      intro pa hpa
      obtain ⟨k2, p2, hsh, _⟩ := pathsList_shape (kv :: rest) pa hpa
      have hgood := pathsList_goodsegs hsep (kv :: rest) hl pa hpa
      have hne2 : pa.1 ≠ [] := by rw [hsh]; simp
      simp only [Function.comp_apply, id_eq]
      rw [pySplit_joinPath hsep hne2 hgood]
    rw [List.map_congr_left hpt, List.map_id]
    rw [insertAllGroups hsep (kv :: rest) hl [] (by intro kv2 _; rfl)]
    rw [List.nil_append]

/-- **C10 counterexample.** With the two-character separator `aa` and the
nested dict `{"xa": {"y": 0}}` — whose keys are non-empty, contain no
occurrence of `aa`, and whose only non-leaf value is a non-empty dict — the
flattened key is `xaaay`, which Python's `split("aa")` cuts at the leftmost
occurrence into `["x", "ay"]`, so unflattening yields `{"x": {"ay": 0}}`,
not the original dict. -/
theorem flatten_unflatten_not_inverse :
    wfEntries "aa" [("xa", PyObj.dict [("y", PyObj.leaf (0 : Nat))])] = true ∧
    unflatten_dict (flatten_dict [("xa", PyObj.dict [("y", PyObj.leaf (0 : Nat))])] "aa") "aa" ≠
      Except.ok [("xa", PyObj.dict [("y", PyObj.leaf (0 : Nat))])] := by
  constructor
  · rfl
  · have hval : unflatten_dict
        (flatten_dict [("xa", PyObj.dict [("y", PyObj.leaf (0 : Nat))])] "aa") "aa" =
        Except.ok [("x", PyObj.dict [("ay", PyObj.leaf 0)])] := by
      simp [flatten_dict, flattenAux, flattenList, pyDict, pyDictSet, unflatten_dict,
        insertEntries, pySplit, splitSeq, startsWithSeq, insertPath, pyDictGet]
    rw [hval]
    intro h
    simp at h

/-- Witness for the amended C10 at the single-character separator `.` and a
two-level dict. -/
theorem flatten_unflatten_roundtrip_witness :
    wfEntries "." [("a", PyObj.dict [("x", PyObj.leaf (1 : Nat)), ("y", PyObj.leaf 2)]),
      ("b", PyObj.leaf 3)] = true ∧
    unflatten_dict (flatten_dict
        [("a", PyObj.dict [("x", PyObj.leaf (1 : Nat)), ("y", PyObj.leaf 2)]),
         ("b", PyObj.leaf 3)] ".") "." =
      Except.ok [("a", PyObj.dict [("x", PyObj.leaf (1 : Nat)), ("y", PyObj.leaf 2)]),
        ("b", PyObj.leaf 3)] :=
  ⟨rfl, flatten_unflatten_roundtrip (c := '.') "." rfl
    [("a", PyObj.dict [("x", PyObj.leaf (1 : Nat)), ("y", PyObj.leaf 2)]),
     ("b", PyObj.leaf 3)] rfl⟩

/-- **C9.** When the facade is constructed without a base URL
(`base_url is None`), `_build_url` — and hence every verb method and
`request_with_retry`, which all obtain their request URL from it — uses the
endpoint string verbatim: no joining or slash normalization is applied, even
when the endpoint has no scheme. -/
theorem build_url_none_verbatim (endpoint : String) :
    build_url none endpoint = Except.ok endpoint := rfl

/-- **C2 counterexample.** The endpoint `./x` is not absolute (it starts
with neither `http://` nor `https://`), yet against the base
`http://api.example.com` the built URL is `http://api.example.com/x` —
`urljoin` resolves the `.` segment — and not the claimed concatenation
`http://api.example.com/./x`. -/
theorem build_url_join_counterexample :
    (startsWithSeq "http://".data "./x".data = false ∧
     startsWithSeq "https://".data "./x".data = false) ∧
    build_url (some "http://api.example.com") "./x" =
      Except.ok "http://api.example.com/x" ∧
    build_url (some "http://api.example.com") "./x" ≠
      Except.ok (rstripSlash "http://api.example.com" ++ "/" ++ lstripSlash "./x") := by
  refine ⟨by decide, by decide, by decide⟩

theorem slashPathD_go (segs : List (List Char)) :
    ∀ acc, segs.foldl (fun acc sg => acc ++ '/' :: sg) acc = acc ++ slashPathD segs := by
  induction segs with
  | nil => intro acc; simp [slashPathD]
  | cons sg rest ih =>
    intro acc
    simp only [slashPathD, List.foldl_cons]
    rw [ih (acc ++ '/' :: sg), ih ([] ++ '/' :: sg)]
    simp

theorem slashPathD_cons (sg : List Char) (rest : List (List Char)) :
    slashPathD (sg :: rest) = '/' :: (sg ++ slashPathD rest) := by
  rw [slashPathD, List.foldl_cons, slashPathD_go]
  simp

theorem slashPathD_append (xs ys : List (List Char)) :
    slashPathD (xs ++ ys) = slashPathD xs ++ slashPathD ys := by
  rw [slashPathD, List.foldl_append, slashPathD_go]
  rfl

theorem slashPath_data (segs : List String) :
    (slashPath segs).data = slashPathD (segs.map String.data) := by
  suffices h : ∀ acc : String,
      (segs.foldl (fun acc sg => acc ++ "/" ++ sg) acc).data =
        acc.data ++ slashPathD (segs.map String.data) by
    simpa [slashPath] using h ""
  induction segs with
  | nil => intro acc; simp [slashPathD]
  | cons sg rest ih =>
    intro acc
    rw [List.foldl_cons, ih, List.map_cons, slashPathD_cons]
    simp [String.data_append]

theorem relPath_data (segs : List String) :
    (relPath segs).data = relPathD (segs.map String.data) := by
  cases segs with
  | nil => rfl
  | cons sg rest =>
    rw [relPath, relPathD.eq_def]
    simp only [List.map_cons]
    rw [String.data_append, slashPath_data]

theorem lstripC0_id {l : List Char} (h : ∀ c ∈ l, 32 < c.toNat) :
    lstripC0 l = l := by
  cases l with
  | nil => rfl
  | cons c rest =>
    rw [lstripC0, if_neg (by have := h c (by simp); omega)]

theorem stripC0_id {l : List Char} (h : ∀ c ∈ l, 32 < c.toNat) :
    stripC0 l = l := by
  rw [stripC0, lstripC0_id (l := l.reverse) (by intro c hc; exact h c (by simpa using hc)),
    List.reverse_reverse]
  exact lstripC0_id h

theorem removeUnsafe_id {l : List Char} (h : ∀ c ∈ l, 32 < c.toNat) :
    removeUnsafe l = l := by
  rw [removeUnsafe, List.filter_eq_self]
  intro c hc
  have h32 := h c hc
  simp only [decide_eq_true_eq]
  rintro (rfl | rfl | rfl) <;> simp at h32

theorem findChar_none {ch : Char} {l : List Char} (h : ch ∉ l) :
    findChar ch l = none := by
  induction l with
  | nil => rfl
  | cons c rest ih =>
    rw [findChar, if_neg (by rintro rfl; exact h (by simp)),
      ih (fun hm => h (List.mem_cons_of_mem c hm))]

theorem findChar_append {ch : Char} {a : List Char} (h : ch ∉ a) (b : List Char) :
    findChar ch (a ++ ch :: b) = some a.length := by
  induction a with
  | nil => simp [findChar]
  | cons c rest ih =>
    rw [List.cons_append, findChar, if_neg (by rintro rfl; exact h (by simp)),
      ih (fun hm => h (List.mem_cons_of_mem c hm))]
    simp

theorem takeWhile_append_all {p : Char → Bool} {a : List Char}
    (h : ∀ c ∈ a, p c = true) (b : List Char) :
    (a ++ b).takeWhile p = a ++ b.takeWhile p := by
  induction a with
  | nil => simp
  | cons c rest ih =>
    rw [List.cons_append, List.takeWhile_cons, h c (by simp)]
    simp [ih (fun x hx => h x (List.mem_cons_of_mem c hx))]

theorem dropWhile_append_all {p : Char → Bool} {a : List Char}
    (h : ∀ c ∈ a, p c = true) (b : List Char) :
    (a ++ b).dropWhile p = b.dropWhile p := by
  induction a with
  | nil => simp
  | cons c rest ih =>
    rw [List.cons_append, List.dropWhile_cons, h c (by simp),
      ih (fun x hx => h x (List.mem_cons_of_mem c hx))]
    simp

theorem dropWhile_replicate_slash (m : Nat) (l : List Char) :
    (List.replicate m '/' ++ l).dropWhile (fun c => c = '/') =
      l.dropWhile (fun c => c = '/') := by
  apply dropWhile_append_all
  intro c hc
  rw [List.eq_of_mem_replicate hc]
  simp

theorem splitChar_ne_nil (ch : Char) (s : List Char) : splitChar ch s ≠ [] := by
  cases s with
  | nil => simp [splitChar]
  | cons c rest =>
    rw [splitChar]
    split
    · simp
    · split <;> simp

theorem splitChar_no_occur {ch : Char} {s : List Char} (h : ch ∉ s) :
    splitChar ch s = [s] := by
  induction s with
  | nil => rfl
  | cons c rest ih =>
    rw [splitChar, if_neg (by rintro rfl; exact h (by simp)),
      ih (fun hm => h (List.mem_cons_of_mem c hm))]

theorem splitChar_append (ch : Char) (a b : List Char) (h : ch ∉ a) :
    splitChar ch (a ++ ch :: b) = splitChar ch a ++ splitChar ch b := by
  induction a with
  | nil => simp [splitChar]
  | cons c rest ih =>
    have hc : ¬ (c = ch) := by rintro rfl; exact h (by simp)
    have hrest : ch ∉ rest := fun hm => h (List.mem_cons_of_mem c hm)
    rw [List.cons_append, splitChar, if_neg hc, ih hrest]
    rw [show splitChar ch (c :: rest) = (match splitChar ch rest with
        | [] => [[c]]
        | hd :: t => (c :: hd) :: t) from by rw [splitChar, if_neg hc]]
    cases hsp : splitChar ch rest with
    | nil => exact absurd hsp (splitChar_ne_nil ch rest)
    | cons h0 t0 => simp

/-- Splitting `sg/r1/.../rn` at `/` recovers the segments. -/
theorem splitChar_relPath (sg : List Char) (rest : List (List Char))
    (hsg : '/' ∉ sg) (hrest : ∀ x ∈ rest, '/' ∉ x) :
    splitChar '/' (sg ++ slashPathD rest) = sg :: rest := by
  induction rest generalizing sg with
  | nil =>
    rw [show slashPathD [] = [] from rfl, List.append_nil, splitChar_no_occur hsg]
  | cons r rs ih =>
    rw [slashPathD_cons, splitChar_append '/' sg _ hsg,
      ih r (hrest r (by simp)) (fun x hx => hrest x (List.mem_cons_of_mem r hx)),
      splitChar_no_occur hsg]
    rfl

/-- Splitting `sg/r1/.../rn/` at `/` recovers the segments plus a trailing
empty item. -/
theorem splitChar_relPath_slash (sg : List Char) (rest : List (List Char))
    (hsg : '/' ∉ sg) (hrest : ∀ x ∈ rest, '/' ∉ x) :
    splitChar '/' (sg ++ slashPathD rest ++ ['/']) = sg :: rest ++ [[]] := by
  induction rest generalizing sg with
  | nil =>
    rw [show slashPathD [] = [] from rfl, List.append_nil]
    rw [show sg ++ ['/'] = sg ++ '/' :: [] from rfl,
      splitChar_append '/' sg [] hsg, splitChar_no_occur hsg]
    rfl
  | cons r rs ih =>
    rw [slashPathD_cons]
    rw [show sg ++ ('/' :: (r ++ slashPathD rs)) ++ ['/'] =
        sg ++ '/' :: (r ++ slashPathD rs ++ ['/']) from by simp]
    rw [splitChar_append '/' sg _ hsg,
      ih r (hrest r (by simp)) (fun x hx => hrest x (List.mem_cons_of_mem r hx)),
      splitChar_no_occur hsg]
    rfl

/-- Splitting the base path `/b1/.../bn/` at `/`. -/
theorem splitChar_basePath (segs : List (List Char)) (hsegs : ∀ x ∈ segs, '/' ∉ x) :
    splitChar '/' (slashPathD segs ++ ['/']) = [] :: segs ++ [[]] := by
  cases segs with
  | nil => rfl
  | cons sg rest =>
    rw [slashPathD_cons]
    rw [show ('/' :: (sg ++ slashPathD rest)) ++ ['/'] =
        '/' :: (sg ++ slashPathD rest ++ ['/']) from by simp]
    rw [show splitChar '/' ('/' :: (sg ++ slashPathD rest ++ ['/'])) =
        [] :: splitChar '/' (sg ++ slashPathD rest ++ ['/']) from by
      rw [splitChar, if_pos rfl]]
    rw [splitChar_relPath_slash sg rest (hsegs sg (by simp))
      (fun x hx => hsegs x (List.mem_cons_of_mem sg hx))]
    rfl

theorem keepLastFilter_cons₂ (x z : List Char) (zs : List (List Char)) :
    keepLastFilter (x :: z :: zs) =
      if x.isEmpty then keepLastFilter (z :: zs) else x :: keepLastFilter (z :: zs) := rfl

theorem keepLastFilter_append {xs ys : List (List Char)} (hys : ys ≠ []) :
    keepLastFilter (xs ++ ys) = xs.filter (fun z => ¬ z.isEmpty) ++ keepLastFilter ys := by
  induction xs with
  | nil => simp
  | cons x rest ih =>
    have hne : rest ++ ys ≠ [] := by
      simp only [ne_eq, List.append_eq_nil]
      rintro ⟨-, rfl⟩
      exact hys rfl
    obtain ⟨z, zs, hzzs⟩ : ∃ z zs, rest ++ ys = z :: zs := by
      cases hq : rest ++ ys with
      | nil => exact absurd hq hne
      | cons z zs => exact ⟨z, zs, rfl⟩
    rw [List.cons_append, show keepLastFilter (x :: (rest ++ ys)) =
        (if x.isEmpty then keepLastFilter (rest ++ ys)
         else x :: keepLastFilter (rest ++ ys)) from by
      rw [hzzs, keepLastFilter_cons₂, ← hzzs]]
    rw [ih, List.filter_cons]
    cases hx : x.isEmpty <;> simp [hx]

theorem keepLastFilter_all_nonempty {l : List (List Char)}
    (h : ∀ x ∈ l, x ≠ []) : keepLastFilter l = l := by
  induction l with
  | nil => rfl
  | cons x rest ih =>
    cases rest with
    | nil => rfl
    | cons y ys =>
      rw [keepLastFilter_cons₂]
      rw [if_neg (by simpa using h x (by simp))]
      rw [ih (fun z hz => h z (List.mem_cons_of_mem x hz))]

theorem resolveSegs_no_dots {l : List (List Char)}
    (h : ∀ s ∈ l, s ≠ ['.'] ∧ s ≠ ['.', '.']) :
    ∀ acc, resolveSegs acc l = acc ++ l := by
  induction l with
  | nil => intro acc; simp [resolveSegs]
  | cons s rest ih =>
    intro acc
    obtain ⟨h1, h2⟩ := h s (by simp)
    rw [resolveSegs, if_neg h2, if_neg h1,
      ih (fun x hx => h x (List.mem_cons_of_mem s hx))]
    simp

theorem joinSlash_cons (sg : List Char) (rest : List (List Char)) :
    joinSlash (sg :: rest) = sg ++ slashPathD rest := by
  induction rest generalizing sg with
  | nil => simp [joinSlash, slashPathD]
  | cons r rs ih =>
    rw [show joinSlash (sg :: r :: rs) = sg ++ '/' :: joinSlash (r :: rs) from rfl]
    rw [ih r, slashPathD_cons]

theorem netlocCharOk_spec {ch : Char} (h : netlocCharOk ch = true) :
    32 < ch.toNat ∧ ch.toNat < 128 ∧ ch ≠ '/' ∧ ch ≠ '?' ∧ ch ≠ '#' ∧
      ch ≠ '[' ∧ ch ≠ ']' := by
  simp only [netlocCharOk, decide_eq_true_eq] at h
  tauto

theorem pathCharOk_spec {ch : Char} (h : pathCharOk ch = true) :
    32 < ch.toNat ∧ ch ≠ '/' ∧ ch ≠ '?' ∧ ch ≠ '#' ∧ ch ≠ ';' ∧ ch ≠ ':' := by
  simp only [pathCharOk, decide_eq_true_eq] at h
  tauto

/-- Symbolic evaluation of `urlsplit` on an absolute URL
`<scheme>://<netloc></path>` with a plain netloc and a slash-led path free of
query/fragment delimiters. -/
theorem urlsplit_abs (schd nld pathd : List Char)
    (hs1 : schd ≠ []) (hs2 : headAsciiAlpha schd = true)
    (hs3 : schd.all isSchemeChar = true)
    (hs4 : schd.map Char.toLower = schd)
    (hscol : ':' ∉ schd)
    (hs32 : ∀ ch ∈ schd, 32 < ch.toNat)
    (hnl : ∀ ch ∈ nld, netlocCharOk ch = true)
    (hpath1 : pathd.take 1 = ['/'])
    (hpath : ∀ ch ∈ pathd, 32 < ch.toNat ∧ ch ≠ '?' ∧ ch ≠ '#') :
    urlsplit (schd ++ ':' :: '/' :: '/' :: (nld ++ pathd)) [] =
      Except.ok ⟨schd, nld, pathd, [], []⟩ := by
  obtain ⟨c0, schd', rfl⟩ := List.exists_cons_of_ne_nil hs1
  obtain ⟨p', rfl⟩ : ∃ p', pathd = '/' :: p' := by
    cases pathd with
    | nil => simp at hpath1
    | cons p0 t =>
      simp only [List.take_succ_cons, List.take_zero, List.cons.injEq, and_true] at hpath1
      exact ⟨t, by rw [hpath1]⟩
  have hall32 : ∀ ch ∈ (c0 :: schd') ++ ':' :: '/' :: '/' :: (nld ++ '/' :: p'),
      32 < ch.toNat := by
    intro ch hch
    rcases List.mem_append.mp hch with hch | hch
    · exact hs32 ch hch
    · simp only [List.mem_cons] at hch
      rcases hch with rfl | rfl | rfl | hch
      · decide
      · decide
      · decide
      · rcases List.mem_append.mp hch with hch | hch
        · exact (netlocCharOk_spec (hnl ch hch)).1
        · simp only [List.mem_cons] at hch
          rcases hch with rfl | hch
          · decide
          · exact (hpath ch (List.mem_cons_of_mem _ hch)).1
  have hurl1 : removeUnsafe (lstripC0
        ((c0 :: schd') ++ ':' :: '/' :: '/' :: (nld ++ '/' :: p'))) =
      (c0 :: schd') ++ ':' :: '/' :: '/' :: (nld ++ '/' :: p') := by
    rw [lstripC0_id hall32, removeUnsafe_id hall32]
  have hfind : findChar ':' ((c0 :: schd') ++ ':' :: '/' :: '/' :: (nld ++ '/' :: p')) =
      some (c0 :: schd').length := findChar_append hscol _
  have htake : ((c0 :: schd') ++ ':' :: '/' :: '/' :: (nld ++ '/' :: p')).take
      (c0 :: schd').length = c0 :: schd' := List.take_left _ _
  have hdrop : ((c0 :: schd') ++ ':' :: '/' :: '/' :: (nld ++ '/' :: p')).drop
      ((c0 :: schd').length + 1) = '/' :: '/' :: (nld ++ '/' :: p') := by
    rw [show (c0 :: schd') ++ ':' :: '/' :: '/' :: (nld ++ '/' :: p') =
        ((c0 :: schd') ++ [':']) ++ '/' :: '/' :: (nld ++ '/' :: p') from by simp,
      show (c0 :: schd').length + 1 = ((c0 :: schd') ++ [':']).length from by simp]
    exact List.drop_left _ _
  have hnotdelim : ∀ ch ∈ nld,
      (¬(ch = '/' ∨ ch = '?' ∨ ch = '#') : Bool) = true := by
    intro ch hch
    obtain ⟨-, -, h1, h2, h3, -, -⟩ := netlocCharOk_spec (hnl ch hch)
    simp [h1, h2, h3]
  have hsplitnl : splitnetloc (nld ++ '/' :: p') = (nld, '/' :: p') := by
    rw [splitnetloc, takeWhile_append_all hnotdelim, dropWhile_append_all hnotdelim]
    rw [List.takeWhile_cons, List.dropWhile_cons]
    simp
  have hnobrack : ∀ ch, ch = '[' ∨ ch = ']' → ch ∉ nld := by
    intro ch hbr hch
    obtain ⟨-, -, -, -, -, h4, h5⟩ := netlocCharOk_spec (hnl ch hch)
    rcases hbr with rfl | rfl
    · exact h4 rfl
    · exact h5 rfl
  have hascii : nld.all (fun ch => ch.toNat < 128) = true := by
    rw [List.all_eq_true]
    intro ch hch
    have := (netlocCharOk_spec (hnl ch hch)).2.1
    simpa using this
  have hnohash : '#' ∉ '/' :: p' := by
    intro h
    rcases List.mem_cons.mp h with heq | hch
    · exact absurd heq (by decide)
    · exact (hpath '#' (List.mem_cons_of_mem _ hch)).2.2 rfl
  have hnoq : '?' ∉ '/' :: p' := by
    intro h
    rcases List.mem_cons.mp h with heq | hch
    · exact absurd heq (by decide)
    · exact (hpath '?' (List.mem_cons_of_mem _ hch)).2.1 rfl
  rw [urlsplit]
  simp only [hurl1, hfind]
  have hcond : 0 < (c0 :: schd').length ∧
      headAsciiAlpha (c0 :: schd' ++ ':' :: '/' :: '/' :: (nld ++ '/' :: p')) = true ∧
      ((c0 :: schd' ++ ':' :: '/' :: '/' :: (nld ++ '/' :: p')).take
        (c0 :: schd').length).all isSchemeChar = true :=
    ⟨by simp, by simpa [headAsciiAlpha] using hs2, by rw [htake]; exact hs3⟩
  rw [if_pos hcond]
  rw [htake, hs4, hdrop]
  rw [if_pos (show (('/' : Char) :: '/' :: (nld ++ '/' :: p')).take 2 = ['/', '/'] from rfl)]
  simp only [List.drop_succ_cons, List.drop_zero]
  simp only [hsplitnl]
  rw [if_neg (by
    rintro (⟨h1, -⟩ | ⟨h1, -⟩)
    · exact hnobrack '[' (Or.inl rfl) h1
    · exact hnobrack ']' (Or.inr rfl) h1)]
  rw [if_neg (by rintro ⟨h1, -⟩; exact hnobrack '[' (Or.inl rfl) h1)]
  rw [if_neg (by rintro ⟨-, h2⟩; exact h2 hascii)]
  rw [if_neg hnohash, if_neg hnoq]

/-- Symbolic evaluation of `urlsplit` on a relative path reference with no
scheme, netloc, query or fragment delimiters. -/
theorem urlsplit_rel (schemearg pathd : List Char)
    (hsch32 : ∀ ch ∈ schemearg, 32 < ch.toNat)
    (hne : pathd ≠ [])
    (hhead : pathd.headD ' ' ≠ '/')
    (hpath : ∀ ch ∈ pathd, 32 < ch.toNat ∧ ch ≠ ':' ∧ ch ≠ '?' ∧ ch ≠ '#') :
    urlsplit pathd schemearg = Except.ok ⟨schemearg, [], pathd, [], []⟩ := by
  obtain ⟨q0, q', rfl⟩ := List.exists_cons_of_ne_nil hne
  have hq0 : q0 ≠ '/' := by simpa using hhead
  have hall32 : ∀ ch ∈ q0 :: q', 32 < ch.toNat := fun ch hch => (hpath ch hch).1
  have hurl1 : removeUnsafe (lstripC0 (q0 :: q')) = q0 :: q' := by
    rw [lstripC0_id hall32, removeUnsafe_id hall32]
  have hscheme1 : removeUnsafe (stripC0 schemearg) = schemearg := by
    rw [stripC0_id hsch32, removeUnsafe_id hsch32]
  have hfind : findChar ':' (q0 :: q') = none :=
    findChar_none (fun hm => (hpath ':' hm).2.1 rfl)
  have htake2 : ¬ ((q0 :: q').take 2 = ['/', '/']) := by
    cases q' with
    | nil => simp
    | cons q1 q'' =>
      simp only [List.take_succ_cons, List.take_zero, List.cons.injEq, and_true, ne_eq]
      rintro ⟨h1, -⟩
      exact hq0 h1
  have hnohash : '#' ∉ q0 :: q' := fun hm => (hpath '#' hm).2.2.2 rfl
  have hnoq : '?' ∉ q0 :: q' := fun hm => (hpath '?' hm).2.2.1 rfl
  rw [urlsplit]
  simp only [hurl1, hscheme1, hfind]
  rw [if_neg htake2]
  rw [if_neg hnohash, if_neg hnoq]

theorem urlparse_noparams {u s : List Char} {r : SplitResult}
    (h : urlsplit u s = Except.ok r) (hsemi : ';' ∉ r.path) :
    urlparse u s = Except.ok ⟨r.scheme, r.netloc, r.path, [], r.query, r.fragment⟩ := by
  rw [urlparse, h]
  show (if String.mk r.scheme ∈ usesParams ∧ ';' ∈ r.path then
      match splitparams r.path with
      | (p, params) =>
        (Except.ok ⟨r.scheme, r.netloc, p, params, r.query, r.fragment⟩ :
          Except String ParseResult)
    else Except.ok ⟨r.scheme, r.netloc, r.path, [], r.query, r.fragment⟩) =
    Except.ok ⟨r.scheme, r.netloc, r.path, [], r.query, r.fragment⟩
  rw [if_neg (by rintro ⟨-, h2⟩; exact hsemi h2)]

theorem segOk_spec {sg : String} (h : segOk sg = true) :
    sg.data ≠ [] ∧ sg.data ≠ ['.'] ∧ sg.data ≠ ['.', '.'] ∧
      ∀ ch ∈ sg.data, pathCharOk ch = true := by
  simp only [segOk, Bool.and_eq_true, decide_eq_true_eq, List.all_eq_true] at h
  obtain ⟨⟨⟨h1, h2⟩, h3⟩, h4⟩ := h
  refine ⟨h1, ?_, ?_, h4⟩
  · intro hd
    exact h2 (String.ext hd)
  · intro hd
    exact h3 (String.ext hd)

theorem startsWithSeq_mem {p s : List Char} (h : startsWithSeq p s = true) :
    ∀ c ∈ p, c ∈ s := by
  induction p generalizing s with
  | nil => simp
  | cons a p2 ih =>
    cases s with
    | nil => simp [startsWithSeq] at h
    | cons b s2 =>
      simp only [startsWithSeq, Bool.and_eq_true, decide_eq_true_eq] at h
      intro c hc
      rcases List.mem_cons.mp hc with rfl | hc
      · rw [h.1]; simp
      · exact List.mem_cons_of_mem b (ih h.2 c hc)

theorem slashPathD_mem {ch : Char} {segs : List (List Char)}
    (h : ch ∈ slashPathD segs) : ch = '/' ∨ ∃ sg ∈ segs, ch ∈ sg := by
  induction segs with
  | nil => simp [slashPathD] at h
  | cons sg rest ih =>
    rw [slashPathD_cons] at h
    rcases List.mem_cons.mp h with rfl | h
    · exact Or.inl rfl
    · rcases List.mem_append.mp h with h | h
      · exact Or.inr ⟨sg, by simp, h⟩
      · rcases ih h with h | ⟨sg2, hsg2, hch⟩
        · exact Or.inl h
        · exact Or.inr ⟨sg2, List.mem_cons_of_mem sg hsg2, hch⟩

theorem relPathD_mem {ch : Char} {segs : List (List Char)}
    (h : ch ∈ relPathD segs) : ch = '/' ∨ ∃ sg ∈ segs, ch ∈ sg := by
  cases segs with
  | nil => simp [relPathD] at h
  | cons sg rest =>
    rw [relPathD.eq_def] at h
    rcases List.mem_append.mp h with h | h
    · exact Or.inr ⟨sg, by simp, h⟩
    · rcases slashPathD_mem h with h | ⟨sg2, hsg2, hch⟩
      · exact Or.inl h
      · exact Or.inr ⟨sg2, List.mem_cons_of_mem sg hsg2, hch⟩

theorem getLastD_append_single (l : List (List Char)) (x d : List Char) :
    (l ++ [x]).getLastD d = x := by
  induction l with
  | nil => rfl
  | cons a rest ih =>
    rw [List.cons_append, List.getLastD_cons]
    cases hq : rest ++ [x] with
    | nil => simp at hq
    | cons z zs =>
      rw [← hq]
      rw [show (rest ++ [x]).getLastD a = (rest ++ [x]).getLastD d from by
        rw [hq]; rw [List.getLastD_cons, List.getLastD_cons]]
      exact ih

theorem exists_append_single_of_ne_nil {l : List Char} (h : l ≠ []) :
    ∃ Y c, l = Y ++ [c] := by
  obtain ⟨c, t, hrev⟩ := List.exists_cons_of_ne_nil (l := l.reverse) (by simpa using h)
  refine ⟨t.reverse, c, ?_⟩
  rw [← List.reverse_reverse l, hrev]
  simp

theorem exists_append_single_of_ne_nil₂ {l : List (List Char)} (h : l ≠ []) :
    ∃ Y c, l = Y ++ [c] := by
  obtain ⟨c, t, hrev⟩ := List.exists_cons_of_ne_nil (l := l.reverse) (by simpa using h)
  refine ⟨t.reverse, c, ?_⟩
  rw [← List.reverse_reverse l, hrev]
  simp

theorem rstrip_append_replicate {A Y : List Char} {c : Char} (k : Nat)
    (hA : A = Y ++ [c]) (hc : c ≠ '/') :
    ((A ++ List.replicate k '/').reverse.dropWhile (fun x => x = '/')).reverse = A := by
  subst hA
  rw [List.reverse_append, List.reverse_replicate, dropWhile_append_all
    (by intro x hx; rw [List.eq_of_mem_replicate hx]; simp)]
  rw [List.reverse_append]
  simp only [List.reverse_cons, List.reverse_nil, List.nil_append, List.singleton_append]
  rw [List.dropWhile_cons, if_neg (by simpa using hc)]
  simp

theorem filterInner_cons₂ (x z : List Char) (zs : List (List Char)) :
    filterInner (x :: z :: zs) = x :: keepLastFilter (z :: zs) := rfl

theorem keepLastFilter_calc (bs es : List (List Char)) (hbs : ∀ x ∈ bs, x ≠ [])
    (hes : ∀ x ∈ es, x ≠ []) (hesne : es ≠ []) :
    keepLastFilter ((bs ++ [[]]) ++ es) = bs ++ es := by
  have h1 : List.filter (fun z => ¬ z.isEmpty) bs = bs := by
    apply List.filter_eq_self.mpr
    intro a ha
    simpa [List.isEmpty_iff] using hbs a ha
  have h2 : List.filter (fun z => ¬ z.isEmpty) [[]] = ([] : List (List Char)) := by
    simp
  rw [keepLastFilter_append hesne, List.filter_append, h1, h2, List.append_nil,
    keepLastFilter_all_nonempty hes]

/-- **C2 (amended).** Every URL built by `_build_url` is either the endpoint
passed through unchanged when the endpoint is already absolute (starts with
`http://` or `https://`), or — for endpoints that are plain relative paths
(any number of leading slashes, then one or more non-empty segments of plain
URL characters, separated by single slashes, with no dot segments) against a
base URL of the form `http(s)://<netloc></path>` (non-empty printable-ASCII
netloc free of delimiters and brackets; plain path segments; optional
trailing slashes) — the base URL with trailing slashes stripped, concatenated
via exactly one separating slash with the endpoint with leading slashes
stripped. -/
theorem build_url_spec :
    (∀ (base_url : Option String) (endpoint : String),
      (startsWithSeq "http://".data endpoint.data = true ∨
       startsWithSeq "https://".data endpoint.data = true) →
      build_url base_url endpoint = Except.ok endpoint) ∧
    (∀ (sch nl : String) (bsegs : List String) (k m : Nat) (esegs : List String),
      (sch = "http" ∨ sch = "https") →
      nl.data ≠ [] → (∀ ch ∈ nl.data, netlocCharOk ch = true) →
      (∀ sg ∈ bsegs, segOk sg = true) →
      esegs ≠ [] → (∀ sg ∈ esegs, segOk sg = true) →
      build_url
        (some (sch ++ "://" ++ nl ++ slashPath bsegs ++ String.mk (List.replicate k '/')))
        (String.mk (List.replicate m '/') ++ relPath esegs) =
      Except.ok
        (rstripSlash (sch ++ "://" ++ nl ++ slashPath bsegs ++
            String.mk (List.replicate k '/')) ++ "/" ++
          lstripSlash (String.mk (List.replicate m '/') ++ relPath esegs))) := by
  constructor
  · intro base_url endpoint h
    cases base_url with
    | none => rfl
    | some bb =>
      rw [build_url]
      rw [if_neg (by rintro ⟨-, h2⟩; exact h2 h)]
  · intro sch nl bsegs k m esegs hsch hnl1 hnl hb hene he
    obtain ⟨hs1, hs2, hs3, hs4, hscol, hs32, hrel, hnetl⟩ :
        sch.data ≠ [] ∧ headAsciiAlpha sch.data = true ∧
        sch.data.all isSchemeChar = true ∧
        sch.data.map Char.toLower = sch.data ∧ ':' ∉ sch.data ∧
        (∀ ch ∈ sch.data, 32 < ch.toNat) ∧
        String.mk sch.data ∈ usesRelative ∧ String.mk sch.data ∈ usesNetloc := by
      rcases hsch with rfl | rfl <;>
        exact ⟨by decide, by decide, by decide, by decide, by decide, by decide,
          by decide, by decide⟩
    -- abbreviations
    set bsegd := bsegs.map String.data with hbsegd
    set esegd := esegs.map String.data with hesegd
    have hbsl : ∀ x ∈ bsegd, '/' ∉ x := by
      intro x hx hslash
      obtain ⟨sg, hsg, rfl⟩ := List.mem_map.mp hx
      exact (pathCharOk_spec ((segOk_spec (hb sg hsg)).2.2.2 '/' hslash)).2.1 rfl
    have hesl : ∀ x ∈ esegd, '/' ∉ x := by
      intro x hx hslash
      obtain ⟨sg, hsg, rfl⟩ := List.mem_map.mp hx
      exact (pathCharOk_spec ((segOk_spec (he sg hsg)).2.2.2 '/' hslash)).2.1 rfl
    have hesne : ∀ x ∈ esegd, x ≠ [] := by
      intro x hx
      obtain ⟨sg, hsg, rfl⟩ := List.mem_map.mp hx
      exact (segOk_spec (he sg hsg)).1
    have hbsne : ∀ x ∈ bsegd, x ≠ [] := by
      intro x hx
      obtain ⟨sg, hsg, rfl⟩ := List.mem_map.mp hx
      exact (segOk_spec (hb sg hsg)).1
    have hesegdne : esegd ≠ [] := by
      rw [hesegd]
      simp only [ne_eq, List.map_eq_nil_iff]
      exact hene
    -- character facts about the endpoint path
    have hepchars : ∀ ch ∈ relPathD esegd, 32 < ch.toNat ∧ ch ≠ ':' ∧ ch ≠ '?' ∧ ch ≠ '#' := by
      intro ch hch
      rcases relPathD_mem hch with rfl | ⟨sg, hsg, hchsg⟩
      · exact ⟨by decide, by decide, by decide, by decide⟩
      · obtain ⟨sg2, hsg2, rfl⟩ := List.mem_map.mp hsg
        obtain ⟨h32, -, hq, hh, -, hcolon⟩ :=
          pathCharOk_spec ((segOk_spec (he sg2 hsg2)).2.2.2 ch hchsg)
        exact ⟨h32, hcolon, hq, hh⟩
    -- character facts about the base path (with its trailing slash)
    have hbpchars : ∀ ch ∈ slashPathD bsegd ++ ['/'],
        32 < ch.toNat ∧ ch ≠ '?' ∧ ch ≠ '#' := by
      intro ch hch
      rcases List.mem_append.mp hch with hch | hch
      · rcases slashPathD_mem hch with rfl | ⟨sg, hsg, hchsg⟩
        · exact ⟨by decide, by decide, by decide⟩
        · obtain ⟨sg2, hsg2, rfl⟩ := List.mem_map.mp hsg
          obtain ⟨h32, -, hq, hh, -, -⟩ :=
            pathCharOk_spec ((segOk_spec (hb sg2 hsg2)).2.2.2 ch hchsg)
          exact ⟨h32, hq, hh⟩
      · rcases List.mem_singleton.mp hch with rfl
        exact ⟨by decide, by decide, by decide⟩
    -- the endpoint after lstrip and its head character
    obtain ⟨es1, esrest, rfl⟩ := List.exists_cons_of_ne_nil hene
    obtain ⟨c1, cs1, hc1⟩ := List.exists_cons_of_ne_nil (segOk_spec (he es1 (by simp))).1
    have hc1ok := (segOk_spec (he es1 (by simp))).2.2.2 c1 (by rw [hc1]; simp)
    have hc1slash : c1 ≠ '/' := (pathCharOk_spec hc1ok).2.1
    have hrelne : relPathD esegd ≠ [] := by
      rw [hesegd, List.map_cons, relPathD.eq_def, hc1]
      simp
    have hrelhead : ∃ t, relPathD esegd = c1 :: t := by
      rw [hesegd, List.map_cons, relPathD.eq_def, hc1]
      exact ⟨cs1 ++ slashPathD (esrest.map String.data), rfl⟩
    -- string-level data computations
    have hepdata : (String.mk (List.replicate m '/') ++ relPath (es1 :: esrest)).data =
        List.replicate m '/' ++ relPathD esegd := by
      rw [String.data_append, relPath_data]
    have hlstrip : lstripSlash (String.mk (List.replicate m '/') ++ relPath (es1 :: esrest)) =
        relPath (es1 :: esrest) := by
      apply String.ext
      show ((String.mk (List.replicate m '/') ++ relPath (es1 :: esrest)).data.dropWhile
        (fun c => c = '/')) = (relPath (es1 :: esrest)).data
      rw [hepdata, dropWhile_replicate_slash, relPath_data]
      obtain ⟨t, ht⟩ := hrelhead
      rw [show (es1 :: esrest).map String.data = esegd from rfl, ht, List.dropWhile_cons,
        if_neg (by simpa using hc1slash)]
    have hAdata : (sch ++ "://" ++ nl ++ slashPath bsegs).data =
        sch.data ++ ':' :: '/' :: '/' :: (nl.data ++ slashPathD bsegd) := by
      simp only [String.data_append, slashPath_data]
      simp [List.append_assoc]
    have hBdata : (sch ++ "://" ++ nl ++ slashPath bsegs ++
        String.mk (List.replicate k '/')).data =
        (sch ++ "://" ++ nl ++ slashPath bsegs).data ++ List.replicate k '/' := by
      rw [String.data_append]
    have hAlast : ∃ Y c, (sch ++ "://" ++ nl ++ slashPath bsegs).data = Y ++ [c] ∧
        c ≠ '/' := by
      rw [hAdata]
      rcases hq : bsegd with _ | ⟨b1, brest⟩
      · obtain ⟨Y, c, hYc⟩ := exists_append_single_of_ne_nil hnl1
        refine ⟨sch.data ++ ':' :: '/' :: '/' :: Y, c, ?_, ?_⟩
        · rw [show slashPathD [] = [] from rfl, List.append_nil, hYc]
          simp
        · have hcmem : c ∈ nl.data := by rw [hYc]; simp
          exact (netlocCharOk_spec (hnl c hcmem)).2.2.1
      · obtain ⟨binit, blast, hbi⟩ := exists_append_single_of_ne_nil₂
          (l := b1 :: brest) (by simp)
        have hblastmem : blast ∈ bsegd := by rw [hq, hbi]; simp
        obtain ⟨Yb, cb, hYb⟩ := exists_append_single_of_ne_nil (hbsne blast hblastmem)
        have hcbmem : cb ∈ blast := by rw [hYb]; simp
        refine ⟨sch.data ++ ':' :: '/' :: '/' ::
          (nl.data ++ (slashPathD binit ++ '/' :: Yb)), cb, ?_, ?_⟩
        · rw [hbi, slashPathD_append, show slashPathD [blast] = '/' :: blast from by
            rw [show [blast] = blast :: ([] : List (List Char)) from rfl, slashPathD_cons,
              show slashPathD [] = [] from rfl, List.append_nil], hYb]
          simp
        · have hslash := hbsl blast hblastmem
          intro hcb
          exact hslash (hcb ▸ hcbmem)
    have hrstrip : rstripSlash (sch ++ "://" ++ nl ++ slashPath bsegs ++
        String.mk (List.replicate k '/')) = sch ++ "://" ++ nl ++ slashPath bsegs := by
      apply String.ext
      obtain ⟨Y, c, hYc, hc⟩ := hAlast
      show (((sch ++ "://" ++ nl ++ slashPath bsegs ++
        String.mk (List.replicate k '/')).data.reverse.dropWhile
          (fun c => c = '/')).reverse) = _
      rw [hBdata]
      exact rstrip_append_replicate k hYc hc
    -- entering `_build_url`: the guard holds
    have hBne : (sch ++ "://" ++ nl ++ slashPath bsegs ++
        String.mk (List.replicate k '/')) ≠ "" := by
      intro hx
      have hd := congrArg String.data hx
      rw [hBdata, hAdata] at hd
      simp at hd
    have hnostart : ¬(startsWithSeq "http://".data
        (String.mk (List.replicate m '/') ++ relPath (es1 :: esrest)).data = true ∨
        startsWithSeq "https://".data
        (String.mk (List.replicate m '/') ++ relPath (es1 :: esrest)).data = true) := by
      rintro (h | h) <;>
      · have hcolon := startsWithSeq_mem h ':' (by decide)
        rw [hepdata] at hcolon
        rcases List.mem_append.mp hcolon with hc | hc
        · exact absurd (List.eq_of_mem_replicate hc) (by decide)
        · exact (hepchars ':' hc).2.1 rfl
    rw [build_url]
    rw [if_pos (And.intro hBne hnostart), hrstrip, hlstrip]
    -- evaluating `urljoin`
    have hbne2 : (sch ++ "://" ++ nl ++ slashPath bsegs ++ "/") ≠ "" := by
      intro hx
      have hd := congrArg String.data hx
      rw [String.data_append, hAdata] at hd
      simp at hd
    have hurlne : relPath (es1 :: esrest) ≠ "" := by
      intro hx
      have hd := congrArg String.data hx
      rw [relPath_data] at hd
      exact hrelne hd
    have hbpath1 : (slashPathD bsegd ++ ['/']).take 1 = ['/'] := by
      cases hq : bsegd with
      | nil => rfl
      | cons b1 brest =>
        rw [slashPathD_cons]
        rfl
    have hbsplit := urlsplit_abs sch.data nl.data (slashPathD bsegd ++ ['/'])
      hs1 hs2 hs3 hs4 hscol hs32 hnl hbpath1 hbpchars
    have hsemib : ';' ∉ slashPathD bsegd ++ ['/'] := by
      intro hm
      rcases List.mem_append.mp hm with hm | hm
      · rcases slashPathD_mem hm with h | ⟨sg, hsg, hch⟩
        · exact absurd h (by decide)
        · obtain ⟨sg2, hsg2, rfl⟩ := List.mem_map.mp (hbsegd ▸ hsg)
          exact (pathCharOk_spec ((segOk_spec (hb sg2 hsg2)).2.2.2 ';' hch)).2.2.2.2.1 rfl
      · simp at hm
    have hbparse : urlparse (sch ++ "://" ++ nl ++ slashPath bsegs ++ "/").data [] =
        Except.ok ⟨sch.data, nl.data, slashPathD bsegd ++ ['/'], [], [], []⟩ := by
      have hdata : (sch ++ "://" ++ nl ++ slashPath bsegs ++ "/").data =
          sch.data ++ ':' :: '/' :: '/' :: (nl.data ++ (slashPathD bsegd ++ ['/'])) := by
        rw [String.data_append, hAdata]
        simp [List.append_assoc]
      rw [hdata]
      exact urlparse_noparams hbsplit hsemib
    have huhead : (relPathD esegd).headD ' ' ≠ '/' := by
      obtain ⟨t, ht⟩ := hrelhead
      rw [ht]
      simpa using hc1slash
    have husplit := urlsplit_rel sch.data (relPathD esegd) hs32 hrelne huhead hepchars
    have hsemie : ';' ∉ relPathD esegd := by
      intro hm
      rcases relPathD_mem hm with h | ⟨sg, hsg, hch⟩
      · exact absurd h (by decide)
      · obtain ⟨sg2, hsg2, rfl⟩ := List.mem_map.mp (hesegd ▸ hsg)
        exact (pathCharOk_spec ((segOk_spec (he sg2 hsg2)).2.2.2 ';' hch)).2.2.2.2.1 rfl
    have huparse : urlparse (relPath (es1 :: esrest)).data sch.data =
        Except.ok ⟨sch.data, [], relPathD esegd, [], [], []⟩ := by
      rw [relPath_data]
      exact urlparse_noparams husplit hsemie
    rw [urljoin, if_neg hbne2, if_neg hurlne]
    simp only [hbparse]
    simp only [huparse]
    have hsc : ¬(sch.data ≠ sch.data ∨ String.mk sch.data ∉ usesRelative) := by
      push_neg
      exact ⟨rfl, hrel⟩
    rw [if_neg hsc]
    have hsc2 : ¬(String.mk sch.data ∈ usesNetloc ∧ ([] : List Char) ≠ []) := by
      rintro ⟨-, hx⟩
      exact hx rfl
    rw [if_neg hsc2]
    rw [if_pos hnetl]
    have h3 : ¬(relPathD esegd = [] ∧ True) := by
      rintro ⟨hx, -⟩
      exact hrelne hx
    rw [if_neg h3]
    have hsplitb : splitChar '/' (slashPathD bsegd ++ ['/']) = [] :: bsegd ++ [[]] :=
      splitChar_basePath bsegd hbsl
    rw [hsplitb]
    have hgl : ((((([] : List Char) :: bsegd) ++ [[]]).getLastD []) : List Char) = [] :=
      getLastD_append_single _ _ _
    rw [hgl]
    have h4 : ¬((([] : List Char) ≠ ([] : List Char))) := by simp
    rw [if_neg h4]
    have h5 : ¬((relPathD esegd).take 1 = ['/']) := by
      obtain ⟨t, ht⟩ := hrelhead
      rw [ht]
      simp [hc1slash]
    rw [if_neg h5]
    have hsplite : splitChar '/' (relPathD esegd) = esegd := by
      have h1 : '/' ∉ es1.data := hesl es1.data (by rw [hesegd]; simp)
      have h2 : ∀ x ∈ esrest.map String.data, '/' ∉ x := by
        intro x hx
        exact hesl x (by rw [hesegd, List.map_cons]; exact List.mem_cons_of_mem _ hx)
      rw [hesegd, List.map_cons]
      exact splitChar_relPath es1.data (esrest.map String.data) h1 h2
    rw [hsplite]
    have hfi : filterInner (((([] : List Char) :: bsegd) ++ [[]]) ++ esegd) =
        ([] : List Char) :: (bsegd ++ esegd) := by
      obtain ⟨z, zs, hz⟩ : ∃ z zs, (bsegd ++ [[]]) ++ esegd = z :: zs := by
        cases hq : (bsegd ++ [[]]) ++ esegd with
        | nil => simp at hq
        | cons z zs => exact ⟨z, zs, rfl⟩
      rw [show ((([] : List Char) :: bsegd) ++ [[]]) ++ esegd =
        ([] : List Char) :: ((bsegd ++ [[]]) ++ esegd) from by simp]
      rw [hz, filterInner_cons₂, ← hz,
        keepLastFilter_calc bsegd esegd hbsne hesne hesegdne]
    rw [hfi]
    have hnodots : ∀ s ∈ ([] : List Char) :: (bsegd ++ esegd),
        s ≠ ['.'] ∧ s ≠ ['.', '.'] := by
      intro s hs
      rcases List.mem_cons.mp hs with rfl | hs
      · exact ⟨by decide, by decide⟩
      · rcases List.mem_append.mp hs with hs | hs
        · obtain ⟨sg2, hsg2, rfl⟩ := List.mem_map.mp (hbsegd ▸ hs)
          exact ⟨(segOk_spec (hb sg2 hsg2)).2.1, (segOk_spec (hb sg2 hsg2)).2.2.1⟩
        · obtain ⟨sg2, hsg2, rfl⟩ := List.mem_map.mp (hesegd ▸ hs)
          exact ⟨(segOk_spec (he sg2 hsg2)).2.1, (segOk_spec (he sg2 hsg2)).2.2.1⟩
    have hres : resolveSegs [] (([] : List Char) :: (bsegd ++ esegd)) =
        ([] : List Char) :: (bsegd ++ esegd) :=
      (resolveSegs_no_dots hnodots []).trans (List.nil_append _)
    rw [hres]
    obtain ⟨einit, elast, heid⟩ := exists_append_single_of_ne_nil₂ hesegdne
    have helastmem : elast ∈ esegd := by rw [heid]; simp
    obtain ⟨se, hse, hseq⟩ := List.mem_map.mp (hesegd ▸ helastmem)
    have helast1 : elast ≠ ['.'] := hseq ▸ (segOk_spec (he se hse)).2.1
    have helast2 : elast ≠ ['.', '.'] := hseq ▸ (segOk_spec (he se hse)).2.2.1
    have hgl2 : ((([] : List Char) :: (bsegd ++ esegd)).getLastD []) = elast := by
      rw [heid, show ([] : List Char) :: (bsegd ++ (einit ++ [elast])) =
        (([] : List Char) :: (bsegd ++ einit)) ++ [elast] from by simp]
      exact getLastD_append_single _ _ _
    have h6 : ¬(((([] : List Char) :: (bsegd ++ esegd)).getLastD []) = ['.'] ∨
        ((([] : List Char) :: (bsegd ++ esegd)).getLastD []) = ['.', '.']) := by
      rw [hgl2]
      rintro (h | h)
      exacts [helast1 h, helast2 h]
    rw [if_neg h6]
    have hjoin : joinSlash (([] : List Char) :: (bsegd ++ esegd)) =
        slashPathD (bsegd ++ esegd) := by
      rw [joinSlash_cons]
      simp
    have hsp : slashPathD esegd = '/' :: relPathD esegd := by
      rw [hesegd, List.map_cons, slashPathD_cons]
      rfl
    have hjne : slashPathD (bsegd ++ esegd) ≠ [] := by
      rw [slashPathD_append, hsp]
      simp
    have h7 : ¬(joinSlash (([] : List Char) :: (bsegd ++ esegd)) = []) := by
      rw [hjoin]
      exact hjne
    rw [if_neg h7, hjoin]
    have hpne : ¬(([] : List Char) ≠ []) := by simp
    have htake : (slashPathD (bsegd ++ esegd)).take 1 = ['/'] := by
      cases hq : bsegd with
      | nil =>
        rw [List.nil_append, hsp]
        rfl
      | cons b1 br =>
        rw [List.cons_append, slashPathD_cons]
        rfl
    have hunp : urlunparse sch.data nl.data (slashPathD (bsegd ++ esegd)) [] [] [] =
        sch.data ++ ':' :: '/' :: '/' :: (nl.data ++ slashPathD (bsegd ++ esegd)) := by
      simp only [urlunparse, urlunsplit]
      simp only [if_neg hpne]
      have hcond1 : nl.data ≠ [] ∨ (sch.data ≠ [] ∧ String.mk sch.data ∈ usesNetloc ∧
          (slashPathD (bsegd ++ esegd)).take 2 ≠ ['/', '/']) := Or.inl hnl1
      rw [if_pos hcond1]
      have hcond2 : ¬(slashPathD (bsegd ++ esegd) ≠ [] ∧
          (slashPathD (bsegd ++ esegd)).take 1 ≠ ['/']) := by
        rintro ⟨-, hx⟩
        exact hx htake
      rw [if_neg hcond2]
      rw [if_pos hs1]
    rw [hunp]
    apply congrArg Except.ok
    apply String.ext
    rw [show (String.mk (sch.data ++ ':' :: '/' :: '/' ::
      (nl.data ++ slashPathD (bsegd ++ esegd)))).data =
      sch.data ++ ':' :: '/' :: '/' :: (nl.data ++ slashPathD (bsegd ++ esegd)) from rfl]
    rw [String.data_append, String.data_append, hAdata, relPath_data, ← hesegd,
      slashPathD_append, hsp]
    simp [List.append_assoc]

theorem build_url_spec_witness :
    build_url (some "http://api.example.com") "https://cdn.example.com/a" =
        Except.ok "https://cdn.example.com/a" ∧
    build_url
        (some ("http" ++ "://" ++ "api.example.com" ++ slashPath ["v1"] ++
          String.mk (List.replicate 1 '/')))
        (String.mk (List.replicate 2 '/') ++ relPath ["users", "42"]) =
      Except.ok
        (rstripSlash ("http" ++ "://" ++ "api.example.com" ++ slashPath ["v1"] ++
            String.mk (List.replicate 1 '/')) ++ "/" ++
          lstripSlash (String.mk (List.replicate 2 '/') ++ relPath ["users", "42"])) :=
  ⟨build_url_spec.1 (some "http://api.example.com") "https://cdn.example.com/a"
      (Or.inr (by decide)),
    build_url_spec.2 "http" "api.example.com" ["v1"] 1 2 ["users", "42"]
      (Or.inl rfl) (by decide) (by decide) (by decide) (by decide) (by decide)⟩
